import Mathlib

/-!
# Curve448 scalar multiplication (`curve448.c`): embedding and verification

Byte buffers (`uint8_t[56]`, `uint8_t[112]`) are lists of naturals, read with
`rd`.  The signed accumulators (`int16_t`, `int32_t`) are integers, and every
assignment to one of them goes through the conversion `i16` or `i32` (wrap-around
modulo `2^16` or `2^32`); the lemmas show that on byte buffers no conversion ever
changes a value.  A loop that writes `r[i]` once for each `i` builds the list of
the bytes it writes; an output buffer that aliases an input in the source is a
fresh value here, which is sound because every loop of the source reads position
`i` of its inputs before writing position `i` of its output.
-/

set_option exponentiation.threshold 2000

namespace Curve448

/-! ## Machine-level helpers -/

/-- Conversion `(uint8_t)c` of a signed accumulator. -/
def u8 (c : Int) : Nat := (c % 256).toNat

/-- Conversion to `int16_t`. -/
def i16 (x : Int) : Int := (x + 32768) % 65536 - 32768

/-- Conversion to `int32_t`. -/
def i32 (x : Int) : Int := (x + 2147483648) % 4294967296 - 2147483648

/-- Arithmetic shift `c >>= 8` of a signed accumulator (the shifted value of an
accumulator is again in its range). -/
def shr8 (c : Int) : Int := c / 256

/-- Read of `a[i]`, promoted to a signed integer. -/
def rd (a : List Nat) (i : Nat) : Int := ((a.getD i 0 : Nat) : Int)

/-- Loop `for (i = 0; i < n; i++) { acc; r[i] = (uint8_t)c; c >>= 8; }` where `acc i`
is the effect of the accumulation statements of iteration `i` on `c`.  Returns
the bytes written and the final value of `c`. -/
def carryLoop (acc : Nat → Int → Int) : Nat → Int → List Nat × Int
  | 0, c => ([], c)
  | n + 1, c =>
    let st := carryLoop acc n c
    let c1 := acc n st.2
    (st.1 ++ [u8 c1], shr8 c1)

/-- The field prime `p = 2^448 - 2^224 - 1`. -/
def fieldPrime : Nat := 2 ^ 448 - 2 ^ 224 - 1

/-! ## Field arithmetic -/

/-- Source `fe448_copy`. -/
def fe448_copy (a : List Nat) : List Nat :=
  (List.range 56).map (fun i => a.getD i 0)

/-- Source `fe448_cswap`: `mask = -(uint8_t)c`, `t[i] = (a[i] ^ b[i]) & mask`,
then `a[i] ^= t[i]` and `b[i] ^= t[i]`.  Returns the new `a` and the new `b`. -/
def fe448_cswap (a b : List Nat) (c : Nat) : List Nat × List Nat :=
  let mask := (256 - c % 256) % 256
  let t := (List.range 56).map (fun i => (a.getD i 0 ^^^ b.getD i 0) &&& mask)
  ((List.range 56).map (fun i => a.getD i 0 ^^^ t.getD i 0),
   (List.range 56).map (fun i => b.getD i 0 ^^^ t.getD i 0))

/-- Second pass shared verbatim by `fe448_norm`, `fe448_add`, `fe448_sub`,
`fe448_mul39081`, `fe448_mul` and `fe448_sqr`: the carry `c` of the previous pass is
added at bytes 0 and 28; the carry out of byte 55 is dropped.  The conversion `w`
is that of the type of the accumulator `o` (`cc` in `fe448_mul`, `fe448_sqr`). -/
def foldCarry (w : Int → Int) (r : List Nat) (c : Int) : List Nat :=
  (carryLoop (fun i o => w ((if i = 0 ∨ i = 28 then w (o + c) else o) + rd r i)) 56 0).1

/-- Source `fe448_norm`: the first pass keeps only the carry `c` of `a + 1 + 2^224`
(its byte outputs are discarded), the second pass adds `c` back at bytes 0 and 28. -/
def fe448_norm (a : List Nat) : List Nat :=
  let c := (carryLoop
    (fun i c => if i = 0 ∨ i = 28 then i16 (i16 (c + rd a i) + 1) else i16 (c + rd a i)) 56 0).2
  foldCarry i16 a c

/-- Source `fe448_add`. -/
def fe448_add (a b : List Nat) : List Nat :=
  let st := carryLoop (fun i c => i16 (i16 (c + rd a i) + rd b i)) 56 0
  foldCarry i16 st.1 st.2

/-- Source `fe448_sub`. -/
def fe448_sub (a b : List Nat) : List Nat :=
  let st := carryLoop
    (fun i c =>
      i16 (i16 ((if i = 28 then i16 (c + 0x1fc) else i16 (c + 0x1fe)) + rd a i) - rd b i)) 56 0
  foldCarry i16 st.1 st.2

/-- Source `fe448_mul39081`. -/
def fe448_mul39081 (a : List Nat) : List Nat :=
  let st := carryLoop (fun i c => i32 (c + rd a i * 39081)) 56 0
  foldCarry i32 st.1 st.2

/-- Inner loop of `fe448_mul`: `cnt` iterations of `c += a[i] * b[k - i]` from `i`. -/
def mulInner (a b : List Nat) (k : Nat) : Nat → Nat → Int → Int
  | 0, _, c => c
  | cnt + 1, i, c => mulInner a b k cnt (i + 1) (i32 (c + rd a i * rd b (k - i)))

/-- Columns of the schoolbook product: for `k < 56` the inner loop runs over
`0 ≤ i ≤ k`, for `56 ≤ k < 111` over `k - 55 ≤ i < 56`. -/
def mulColumn (a b : List Nat) (k : Nat) (c : Int) : Int :=
  if k < 56 then mulInner a b k (k + 1) 0 c else mulInner a b k (111 - k) (k - 55) c

/-- First fold of the 112-byte accumulator `t` of `fe448_mul` and `fe448_sqr`:
accumulation statements of the loops over `0 ≤ i < 28` and `28 ≤ i < 56`. -/
def foldAcc (t : List Nat) (i : Nat) (o : Int) : Int :=
  if i < 28 then i16 (i16 (i16 (o + rd t i) + rd t (i + 56)) + rd t (i + 84))
  else i16 (i16 (i16 (i16 (o + rd t i) + rd t (i + 56)) + rd t (i + 28)) + rd t (i + 56))

/-- Reduction of the 112-byte accumulator shared by `fe448_mul` and `fe448_sqr`. -/
def reduceWide (t : List Nat) : List Nat :=
  let st := carryLoop (foldAcc t) 56 0
  foldCarry i16 st.1 st.2

/-- The 112-byte accumulator `t` of `fe448_mul`. -/
def mulWide (a b : List Nat) : List Nat :=
  let st := carryLoop (mulColumn a b) 111 0
  st.1 ++ [u8 st.2]

/-- Source `fe448_mul`. -/
def fe448_mul (a b : List Nat) : List Nat :=
  reduceWide (mulWide a b)

/-- Inner loop of `fe448_sqr`, with its `break` when `k - i < i`. -/
def sqrInner (a : List Nat) (k : Nat) : Nat → Nat → Int → Int
  | 0, _, c => c
  | cnt + 1, i, c =>
    if k - i < i then c
    else
      let p := i32 (rd a i * rd a (k - i))
      let p := if k - i ≠ i then i32 (p * 2) else p
      sqrInner a k cnt (i + 1) (i32 (c + p))

/-- Columns of the square, with the same loop bounds as `mulColumn`. -/
def sqrColumn (a : List Nat) (k : Nat) (c : Int) : Int :=
  if k < 56 then sqrInner a k (k + 1) 0 c else sqrInner a k (111 - k) (k - 55) c

/-- The 112-byte accumulator `t` of `fe448_sqr`. -/
def sqrWide (a : List Nat) : List Nat :=
  let st := carryLoop (sqrColumn a) 111 0
  st.1 ++ [u8 st.2]

/-- Source `fe448_sqr`. -/
def fe448_sqr (a : List Nat) : List Nat :=
  fe448_norm (reduceWide (sqrWide a))

/-- Body `fe448_sqr(t, t); fe448_mul(t, t, a);` of the two loops of `fe448_invert`. -/
def sqrMul (a t : List Nat) : List Nat := fe448_mul (fe448_sqr t) a

/-- Source `fe448_invert`. -/
def fe448_invert (a : List Nat) : List Nat :=
  let t := fe448_sqr a
  let t := fe448_mul t a
  let t := (sqrMul a)^[221] t
  let t := fe448_sqr t
  let t := (sqrMul a)^[222] t
  let t := fe448_sqr t
  let t := fe448_sqr t
  fe448_mul t a

/-! ## Montgomery ladder -/

/-- Variables of `curve448` that are live across iterations of its loop. -/
structure Ladder where
  x2 : List Nat
  z2 : List Nat
  x3 : List Nat
  z3 : List Nat
  swap : Nat

/-- One iteration of the loop of `curve448`, for bit `i` of the scalar `n`. -/
def ladderStep (n x1 : List Nat) (i : Nat) (s : Ladder) : Ladder :=
  let b := (n.getD (i >>> 3) 0 >>> (i &&& 7)) &&& 1
  let swap := s.swap ^^^ b
  let sx := fe448_cswap s.x2 s.x3 swap
  let sz := fe448_cswap s.z2 s.z3 swap
  let x2 := sx.1
  let x3 := sx.2
  let z2 := sz.1
  let z3 := sz.2
  let t0 := fe448_add x2 z2
  let t1 := fe448_add x3 z3
  let x2 := fe448_sub x2 z2
  let x3 := fe448_sub x3 z3
  let t1 := fe448_mul t1 x2
  let z3 := fe448_mul x3 t0
  let t0 := fe448_sqr t0
  let x2 := fe448_sqr x2
  let x3 := fe448_add z3 t1
  let x3 := fe448_sqr x3
  let z3 := fe448_sub z3 t1
  let z3 := fe448_sqr z3
  let z3 := fe448_mul z3 x1
  let t1 := fe448_sub t0 x2
  let x2 := fe448_mul t0 x2
  let z2 := fe448_mul39081 t1
  let z2 := fe448_add t0 z2
  let z2 := fe448_mul z2 t1
  { x2 := x2, z2 := z2, x3 := x3, z3 := z3, swap := b }

/-- Loop `for (i = k - 1; i >= 0; --i)` of `curve448`. -/
def ladderLoop (n x1 : List Nat) : Nat → Ladder → Ladder
  | 0, s => s
  | k + 1, s => ladderLoop n x1 k (ladderStep n x1 k s)

/-- Buffer `{v}` of 56 bytes: first byte `v`, the rest zero. -/
def feConst (v : Nat) : List Nat := v :: List.replicate 55 0

/-- Source `curve448`. -/
def curve448 (n a : List Nat) : List Nat :=
  let x1 := fe448_copy a
  let x3 := fe448_copy a
  let s := ladderLoop n x1 448
    { x2 := feConst 1, z2 := feConst 0, x3 := x3, z3 := feConst 1, swap := 0 }
  let sx := fe448_cswap s.x2 s.x3 s.swap
  let sz := fe448_cswap s.z2 s.z3 s.swap
  let z2 := fe448_invert sz.1
  fe448_norm (fe448_mul sx.1 z2)

/-- Clamped private copy `z` of the scalar: `z[0] &= 0xfc; z[55] |= 0x80;`. -/
def clamp (n : List Nat) : List Nat :=
  ((fe448_copy n).modify (fun x => x &&& 0xfc) 0).modify (fun x => x ||| 0x80) 55

/-- Source `dropbear_curve448_scalarmult`. -/
def dropbear_curve448_scalarmult (n p : List Nat) : List Nat :=
  curve448 (clamp n) p

/-! ## Buffers as integers -/

/-- Little-endian integer value of a byte buffer. -/
def val : List Nat → Nat
  | [] => 0
  | x :: xs => x + 256 * val xs

/-- Little-endian encoding of `v` in `n` bytes (the low `n` base-256 digits of `v`). -/
def encN (n v : Nat) : List Nat := (List.range n).map (fun i => v / 256 ^ i % 256)

/-- The 56-byte little-endian encoding. -/
def enc (v : Nat) : List Nat := encN 56 v

/-- A well-formed `uint8_t[56]` buffer: 56 entries, each a byte. -/
def IsBuf (a : List Nat) : Prop := a.length = 56 ∧ ∀ x ∈ a, x < 256

instance instDecidableIsBuf (a : List Nat) : Decidable (IsBuf a) := by
  unfold IsBuf; infer_instance

/-- Lower-case hexadecimal digit. -/
def hexDigit (d : Nat) : Char := if d < 10 then Char.ofNat (48 + d) else Char.ofNat (87 + d)

/-- Hexadecimal encoding of a byte buffer, two digits for each byte. -/
def hexEncode : List Nat → List Char
  | [] => []
  | b :: r => hexDigit (b / 16) :: hexDigit (b % 16) :: hexEncode r

/-! ## Reference X448 (RFC 7748), with exact arithmetic modulo `p` -/

/-- Ladder variables as integers: used by the reference ladder below and by the
integer-level description of `curve448`. -/
structure LadderV where
  x2 : Nat
  z2 : Nat
  x3 : Nat
  z3 : Nat
  swap : Nat

/-- Swap of a pair when `c` is not zero. -/
def cswapV (x y c : Nat) : Nat × Nat := if c = 0 then (x, y) else (y, x)

/-- The scalar of RFC 7748 `decodeScalar448`: byte 0 ANDed with `0xfc`, byte 55 ORed
with `0x80`, every other byte unchanged. -/
def clampSpec (n : List Nat) : List Nat :=
  (List.range 56).map (fun i =>
    if i = 0 then n.getD 0 0 &&& 0xfc
    else if i = 55 then n.getD 55 0 ||| 0x80
    else n.getD i 0)

/-- Square-and-multiply evaluation of `b ^ e % m` for an exponent of at most `k` bits. -/
def powMod (b m : Nat) : Nat → Nat → Nat
  | 0, _ => 1 % m
  | k + 1, e =>
    let h := powMod b m k (e / 2)
    if e % 2 = 1 then h * h % m * b % m else h * h % m

/-- One step of the RFC 7748 ladder for bit `t` of the scalar `k`, in `GF(p)`. -/
def x448Step (k x1 t : Nat) (s : LadderV) : LadderV :=
  let p := fieldPrime
  let kt := (k >>> t) &&& 1
  let swap := s.swap ^^^ kt
  let x2 := (cswapV s.x2 s.x3 swap).1
  let x3 := (cswapV s.x2 s.x3 swap).2
  let z2 := (cswapV s.z2 s.z3 swap).1
  let z3 := (cswapV s.z2 s.z3 swap).2
  let A := (x2 + z2) % p
  let AA := A * A % p
  let B := (x2 + p - z2) % p
  let BB := B * B % p
  let E := (AA + p - BB) % p
  let C := (x3 + z3) % p
  let D := (x3 + p - z3) % p
  let DA := D * A % p
  let CB := C * B % p
  let x3 := (DA + CB) * (DA + CB) % p
  let z3 := x1 * ((DA + p - CB) * (DA + p - CB) % p) % p
  let x2 := AA * BB % p
  let z2 := E * ((AA + 39081 * E) % p) % p
  { x2 := x2, z2 := z2, x3 := x3, z3 := z3, swap := kt }

/-- Reference ladder over bits `t - 1` down to `0`. -/
def x448Loop (k x1 : Nat) : Nat → LadderV → LadderV
  | 0, s => s
  | t + 1, s => x448Loop k x1 t (x448Step k x1 t s)

/-- Reference `X448(n, u)` of RFC 7748 as an integer in `[0, p)`: the ladder over 448
bits on `u mod p` with the clamped scalar, finished by `x2 * z2 ^ (p - 2) mod p`. -/
def x448 (n u : List Nat) : Nat :=
  let p := fieldPrime
  let k := val (clampSpec n)
  let x1 := val u % p
  let s := x448Loop k x1 448 { x2 := 1, z2 := 0, x3 := x1, z3 := 1, swap := 0 }
  let x2 := (cswapV s.x2 s.x3 s.swap).1
  let z2 := (cswapV s.z2 s.z3 s.swap).1
  x2 * powMod z2 p 448 (p - 2) % p

/-! ## Concrete inputs -/

/-- Scalar of the RFC 7748 X448 test vector. -/
def vecScalar : List Nat :=
  [0x3d, 0x26, 0x2f, 0xdd, 0xf9, 0xec, 0x8e, 0x88, 0x49, 0x52, 0x66, 0xfe, 0xa1, 0x9a,
   0x34, 0xd2, 0x88, 0x82, 0xac, 0xef, 0x04, 0x51, 0x04, 0xd0, 0xd1, 0xaa, 0xe1, 0x21,
   0x70, 0x0a, 0x77, 0x9c, 0x98, 0x4c, 0x24, 0xf8, 0xcd, 0xd7, 0x8f, 0xbf, 0xf4, 0x49,
   0x43, 0xeb, 0xa3, 0x68, 0xf5, 0x4b, 0x29, 0x25, 0x9a, 0x4f, 0x1c, 0x60, 0x0a, 0xd3]

/-- Input u-coordinate of the RFC 7748 X448 test vector. -/
def vecPoint : List Nat :=
  [0x06, 0xfc, 0xe6, 0x40, 0xfa, 0x34, 0x87, 0xbf, 0xda, 0x5f, 0x6c, 0xf2, 0xd5, 0x26,
   0x3f, 0x8a, 0xad, 0x88, 0x33, 0x4c, 0xbd, 0x07, 0x43, 0x7f, 0x02, 0x0f, 0x08, 0xf9,
   0x81, 0x4d, 0xc0, 0x31, 0xdd, 0xbd, 0xc3, 0x8c, 0x19, 0xc6, 0xda, 0x25, 0x83, 0xfa,
   0x54, 0x29, 0xdb, 0x94, 0xad, 0xa1, 0x8a, 0xa7, 0xa7, 0xfb, 0x4e, 0xf8, 0xa0, 0x86]

/-- Output that `curve448` computes for the test vector. -/
def vecOut : List Nat :=
  [0xce, 0x3e, 0x4f, 0xf9, 0x5a, 0x60, 0xdc, 0x66, 0x97, 0xda, 0x1d, 0xb1, 0xd8, 0x5e,
   0x6a, 0xfb, 0xdf, 0x79, 0xb5, 0x0a, 0x24, 0x12, 0xd7, 0x54, 0x6d, 0x5f, 0x23, 0x9f,
   0xe1, 0x4f, 0xba, 0xad, 0xeb, 0x44, 0x5f, 0xc6, 0x6a, 0x01, 0xb0, 0x77, 0x9d, 0x98,
   0x22, 0x39, 0x61, 0x11, 0x1e, 0x21, 0x76, 0x62, 0x82, 0xf7, 0x3d, 0xd9, 0x6b, 0x6f]

/-- The scalar `vecScalar` with bits 0 and 1 of byte 0 and bit 7 of byte 55 flipped. -/
def vecScalarFlipped : List Nat :=
  [0x3e, 0x26, 0x2f, 0xdd, 0xf9, 0xec, 0x8e, 0x88, 0x49, 0x52, 0x66, 0xfe, 0xa1, 0x9a,
   0x34, 0xd2, 0x88, 0x82, 0xac, 0xef, 0x04, 0x51, 0x04, 0xd0, 0xd1, 0xaa, 0xe1, 0x21,
   0x70, 0x0a, 0x77, 0x9c, 0x98, 0x4c, 0x24, 0xf8, 0xcd, 0xd7, 0x8f, 0xbf, 0xf4, 0x49,
   0x43, 0xeb, 0xa3, 0x68, 0xf5, 0x4b, 0x29, 0x25, 0x9a, 0x4f, 0x1c, 0x60, 0x0a, 0x53]

/-- Canonical encoding of 1: the buffer `{1}`. -/
def bufOne : List Nat := 1 :: List.replicate 55 0

/-- All-zero buffer. -/
def bufZero : List Nat := List.replicate 56 0

/-- All-`0xff` buffer, of value `2^448 - 1`. -/
def bufOnes : List Nat := List.replicate 56 0xff

/-- Canonical encoding of `2^224 + 2`: byte 0 is 2, byte 28 is 1. -/
def bufFoldUnitSucc : List Nat := 2 :: List.replicate 27 0 ++ 1 :: List.replicate 27 0

/-- Canonical encoding of `2^336 - 1`: 42 bytes `0xff`, then 14 zero bytes. -/
def bufMulA : List Nat := List.replicate 42 0xff ++ List.replicate 14 0

/-- Canonical encoding of `2^336 + 1`: bytes 0 and 42 are 1. -/
def bufMulB : List Nat := 1 :: List.replicate 41 0 ++ 1 :: List.replicate 13 0

/-- Canonical encoding of the least `A` with `39081 * A ≥ 2^449 - 2^224 - 1`. -/
def bufMul39081 : List Nat := enc ((2 ^ 449 - 2 ^ 224 - 1 + 39080) / 39081)

/-! ## Integer-level description of the field operations

The definitions below are not part of the source: they state, on the integer
values of the buffers, what the byte loops compute.  The lemmas of the next
section prove that the byte-level functions agree with them. -/

/-- Weighted sum `f 0 + f 1 * 256 + ... + f (n - 1) * 256 ^ (n - 1)`. -/
def wsum (f : Nat → Nat) : Nat → Nat
  | 0 => 0
  | n + 1 => wsum f n + f n * 256 ^ n

/-- Value before truncation to 56 bytes of the second pass applied to a first-pass
total `s`: the low 56 bytes plus the carry added at bytes 0 and 28. -/
def foldV (s : Nat) : Nat := s % 256 ^ 56 + s / 256 ^ 56 * (1 + 256 ^ 28)

/-- Total of the first fold of a 112-byte accumulator of value `t`. -/
def fold1V (t : Nat) : Nat :=
  t % 256 ^ 56 + t / 256 ^ 56 % 256 ^ 56 + t / 256 ^ 84 % 256 ^ 28
    + 256 ^ 28 * (t / 256 ^ 56 % 256 ^ 28 + t / 256 ^ 84 % 256 ^ 28)

/-- Per-byte offsets of `fe448_sub`. -/
def subOffset (i : Nat) : Nat := if i = 28 then 0x1fc else 0x1fe

/-- Sum of `cnt` products `a[j] * b[k - j]` for `j` from `i`. -/
def convFrom (a b : List Nat) (k : Nat) : Nat → Nat → Nat
  | 0, _ => 0
  | cnt + 1, i => a.getD i 0 * b.getD (k - i) 0 + convFrom a b k cnt (i + 1)

/-- Integer-level `fe448_add` on encodings. -/
def addW (x y : Nat) : Nat := foldV (x % 256 ^ 56 + y % 256 ^ 56)

/-- Integer-level `fe448_sub` on encodings. -/
def subW (x y : Nat) : Nat := foldV (x % 256 ^ 56 + 2 * fieldPrime - y % 256 ^ 56)

/-- Integer-level `fe448_mul39081` on encodings. -/
def m39W (x : Nat) : Nat := foldV (39081 * (x % 256 ^ 56))

/-- Integer-level `fe448_mul` on encodings. -/
def mulW (x y : Nat) : Nat := foldV (fold1V (x % 256 ^ 56 * (y % 256 ^ 56)))

/-- Integer-level `fe448_sqr` on encodings. -/
def sqrW (x : Nat) : Nat := foldV (fold1V (x % 256 ^ 56 * (x % 256 ^ 56))) % 256 ^ 56 % fieldPrime

/-- Integer-level `fe448_norm` on encodings. -/
def normW (x : Nat) : Nat := x % 256 ^ 56 % fieldPrime

/-- Integer-level `sqrMul`. -/
def sqrMulW (a t : Nat) : Nat := mulW (sqrW t) a

/-- Integer-level `fe448_invert`. -/
def invertW (a : Nat) : Nat :=
  let t := sqrW a
  let t := mulW t a
  let t := (sqrMulW a)^[221] t
  let t := sqrW t
  let t := (sqrMulW a)^[222] t
  let t := sqrW t
  let t := sqrW t
  mulW t a

/-- Integer-level `ladderStep`. -/
def ladderStepV (n : List Nat) (x1 : Nat) (i : Nat) (s : LadderV) : LadderV :=
  let b := (n.getD (i >>> 3) 0 >>> (i &&& 7)) &&& 1
  let swap := s.swap ^^^ b
  let sx := cswapV s.x2 s.x3 swap
  let sz := cswapV s.z2 s.z3 swap
  let x2 := sx.1
  let x3 := sx.2
  let z2 := sz.1
  let z3 := sz.2
  let t0 := addW x2 z2
  let t1 := addW x3 z3
  let x2 := subW x2 z2
  let x3 := subW x3 z3
  let t1 := mulW t1 x2
  let z3 := mulW x3 t0
  let t0 := sqrW t0
  let x2 := sqrW x2
  let x3 := addW z3 t1
  let x3 := sqrW x3
  let z3 := subW z3 t1
  let z3 := sqrW z3
  let z3 := mulW z3 x1
  let t1 := subW t0 x2
  let x2 := mulW t0 x2
  let z2 := m39W t1
  let z2 := addW t0 z2
  let z2 := mulW z2 t1
  { x2 := x2, z2 := z2, x3 := x3, z3 := z3, swap := b }

/-- Integer-level `ladderLoop`. -/
def ladderLoopV (n : List Nat) (x1 : Nat) : Nat → LadderV → LadderV
  | 0, s => s
  | k + 1, s => ladderLoopV n x1 k (ladderStepV n x1 k s)

/-- Integer-level `curve448`. -/
def curve448W (n : List Nat) (u : Nat) : Nat :=
  let s := ladderLoopV n u 448 { x2 := 1, z2 := 0, x3 := u, z3 := 1, swap := 0 }
  let sx := cswapV s.x2 s.x3 s.swap
  let sz := cswapV s.z2 s.z3 s.swap
  let z2 := invertW sz.1
  normW (mulW sx.1 z2)

/-- Encoding of the integer-level ladder variables. -/
def encL (s : LadderV) : Ladder :=
  { x2 := enc s.x2, z2 := enc s.z2, x3 := enc s.x3, z3 := enc s.z3, swap := s.swap }

/-! ## Lemmas: the byte loops and their integer values -/


/-! ## Definitions for the inversion chain, the running accumulators and the carry out -/

/-- Canonical encoding of `2^224 + 1`: bytes 0 and 28 are 1. -/
def bufFoldUnit : List Nat := 1 :: List.replicate 27 0 ++ 1 :: List.replicate 27 0

/-- Canonical encoding of `(p + 1) / 2 = 2^447 - 2^223`, the inverse of 2 modulo `p`. -/
def bufHalf : List Nat :=
  List.replicate 27 0 ++ 0x80 :: List.replicate 27 0xff ++ [0x7f]

/-- The square/multiply chain of `fe448_invert` over arbitrary squaring and
multiplication operations: `sq` stands for `fe448_sqr(t, t)` and `ml t a` for
`fe448_mul(t, t, a)`. -/
def invertChain {α : Type} (sq : α → α) (ml : α → α → α) (a : α) : α :=
  let t := sq a
  let t := ml t a
  let t := (fun t => ml (sq t) a)^[221] t
  let t := sq t
  let t := (fun t => ml (sq t) a)^[222] t
  let t := sq t
  let t := sq t
  ml t a

/-- Bookkeeping of the chain: the exponent of `a` held in `t`, the number of
squarings and the number of multiplications performed so far. -/
structure ChainCount where
  exponent : Nat
  squarings : Nat
  multiplications : Nat
deriving DecidableEq

/-- A squaring doubles the exponent. -/
def ChainCount.sq (t : ChainCount) : ChainCount :=
  { exponent := 2 * t.exponent, squarings := t.squarings + 1,
    multiplications := t.multiplications }

/-- A multiplication adds the exponents. -/
def ChainCount.ml (t a : ChainCount) : ChainCount :=
  { exponent := t.exponent + a.exponent, squarings := t.squarings,
    multiplications := t.multiplications + 1 }

/-- Exact squaring modulo `p`. -/
def sqrExact (x : Nat) : Nat := x * x % fieldPrime

/-- Exact multiplication modulo `p`. -/
def mulExact (x y : Nat) : Nat := x * y % fieldPrime

/-- First statement of the first loop of `fe448_sub`: `c += 0x1fc` at position 28,
`c += 0x1fe` elsewhere. -/
def subAcc1 (i : Nat) (c : Int) : Int := if i = 28 then i16 (c + 0x1fc) else i16 (c + 0x1fe)

/-- Accumulator of `fe448_sub` after `c += a[i]`. -/
def subAcc2 (a : List Nat) (i : Nat) (c : Int) : Int := i16 (subAcc1 i c + rd a i)

/-- Accumulator of `fe448_sub` after `c -= b[i]`: the whole accumulation of one
iteration of its first loop. -/
def subAcc (a b : List Nat) (i : Nat) (c : Int) : Int := i16 (subAcc2 a i c - rd b i)

/-- Value of `c` in `fe448_sub` when iteration `i` of the first loop starts (for
`i = 56`: when the loop ends). -/
def subCarry (a b : List Nat) (i : Nat) : Int := (carryLoop (subAcc a b) i 0).2

/-- Bytes `r` of `fe448_sub` when its first loop ends. -/
def subBytes (a b : List Nat) : List Nat := (carryLoop (subAcc a b) 56 0).1

/-- Value left in the accumulator `o` when the second pass ends: the carry out of
byte 55, which the source discards. -/
def foldCarryOut (w : Int → Int) (r : List Nat) (c : Int) : Int :=
  (carryLoop (fun i o => w ((if i = 0 ∨ i = 28 then w (o + c) else o) + rd r i)) 56 0).2

/-- Value left in `o` when `fe448_add` returns. -/
def fe448_add_carryOut (a b : List Nat) : Int :=
  let st := carryLoop (fun i c => i16 (i16 (c + rd a i) + rd b i)) 56 0
  foldCarryOut i16 st.1 st.2


/-! ## Instrumented embedding: the same program with its control flow and accesses

Every function of the source is written a second time in a monad that records,
in execution order, the iterations of every loop, the outcome of every `if` and
`break`, the variable and index of every array access and every call of a field
operation.  Array reads, branches and calls go through `readT`, `branchT` and
`callT`, which do the recording; the results are proved equal to those of the
functions above. -/

/-- Array variables of the source whose accesses are recorded. -/
inductive Arr
  | a | b | r | t | d | n | z
deriving DecidableEq

/-- Field operations whose calls are recorded. -/
inductive Fn
  | norm | copy | cswap | add | sub | mul39081 | mul | sqr | invert | curve448
deriving DecidableEq

/-- Observable events of an execution. -/
inductive Leak
  | iter (i : Nat)
  | branch (taken : Bool)
  | index (arr : Arr) (i : Nat)
  | call (f : Fn)
deriving DecidableEq

/-- A result together with the events recorded while computing it. -/
structure Tr (α : Type) where
  res : α
  leak : List Leak

instance instMonadTr : Monad Tr where
  pure x := { res := x, leak := [] }
  bind m f := { res := (f m.res).res, leak := m.leak ++ (f m.res).leak }

/-- Read of `arr[i]`. -/
def readT (arr : Arr) (buf : List Nat) (i : Nat) : Tr Nat :=
  { res := buf.getD i 0, leak := [Leak.index arr i] }

/-- Write to `arr[i]` (the value written is kept by the caller). -/
def writeT (arr : Arr) (i : Nat) : Tr Unit :=
  { res := (), leak := [Leak.index arr i] }

/-- Evaluation of the condition of an `if` or `break`. -/
def branchT (b : Bool) : Tr Bool :=
  { res := b, leak := [Leak.branch b] }

/-- Start of the iteration of a `for` loop with counter value `i`. -/
def iterT (i : Nat) : Tr Unit :=
  { res := (), leak := [Leak.iter i] }

/-- Entry into a field operation. -/
def callT (f : Fn) : Tr Unit :=
  { res := (), leak := [Leak.call f] }

/-- Instrumented `carryLoop`; `out` is the array written in each iteration, if any. -/
def carryLoopT (out : Option Arr) (acc : Nat → Int → Tr Int) : Nat → Int → Tr (List Nat × Int)
  | 0, c => pure ([], c)
  | n + 1, c => do
    let st ← carryLoopT out acc n c
    iterT n
    let c1 ← acc n st.2
    match out with
    | some arr => writeT arr n
    | none => pure ()
    pure (st.1 ++ [u8 c1], shr8 c1)

/-- Instrumented loop `for (i = 0; i < n; i++) d[i] = f i;`. -/
def mapLoopT (out : Arr) (f : Nat → Tr Nat) : Nat → Tr (List Nat)
  | 0 => pure []
  | n + 1 => do
    let l ← mapLoopT out f n
    iterT n
    let v ← f n
    writeT out n
    pure (l ++ [v])

/-- Instrumented loop `for (i = 0; i < n; i++) t = f t;`. -/
def repeatT {α : Type} (f : α → Tr α) : Nat → α → Tr α
  | 0, x => pure x
  | n + 1, x => do
    let y ← repeatT f n x
    iterT n
    f y

/-- Instrumented `fe448_copy`. -/
def fe448_copyT (a : List Nat) : Tr (List Nat) := do
  callT Fn.copy
  mapLoopT Arr.d (fun i => readT Arr.a a i) 56

/-- Instrumented `fe448_cswap`. -/
def fe448_cswapT (a b : List Nat) (c : Nat) : Tr (List Nat × List Nat) := do
  callT Fn.cswap
  let mask := (256 - c % 256) % 256
  let t ← mapLoopT Arr.t (fun i => do
    let x ← readT Arr.a a i
    let y ← readT Arr.b b i
    pure ((x ^^^ y) &&& mask)) 56
  let a1 ← mapLoopT Arr.a (fun i => do
    let x ← readT Arr.a a i
    let y ← readT Arr.t t i
    pure (x ^^^ y)) 56
  let b1 ← mapLoopT Arr.b (fun i => do
    let x ← readT Arr.b b i
    let y ← readT Arr.t t i
    pure (x ^^^ y)) 56
  pure (a1, b1)

/-- Instrumented `foldCarry` on the array `arr`. -/
def foldCarryT (arr : Arr) (w : Int → Int) (r : List Nat) (c : Int) : Tr (List Nat) := do
  let st ← carryLoopT (some arr) (fun i o => do
    let b ← branchT (decide (i = 0 ∨ i = 28))
    let o := if b then w (o + c) else o
    let x ← readT arr r i
    pure (w (o + (x : Int)))) 56 0
  pure st.1

/-- Instrumented `fe448_norm`. -/
def fe448_normT (a : List Nat) : Tr (List Nat) := do
  callT Fn.norm
  let st ← carryLoopT none (fun i c => do
    let x ← readT Arr.a a i
    let c := i16 (c + (x : Int))
    let b ← branchT (decide (i = 0 ∨ i = 28))
    pure (if b then i16 (c + 1) else c)) 56 0
  foldCarryT Arr.a i16 a st.2

/-- Instrumented `fe448_add`. -/
def fe448_addT (a b : List Nat) : Tr (List Nat) := do
  callT Fn.add
  let st ← carryLoopT (some Arr.r) (fun i c => do
    let x ← readT Arr.a a i
    let c := i16 (c + (x : Int))
    let y ← readT Arr.b b i
    pure (i16 (c + (y : Int)))) 56 0
  foldCarryT Arr.r i16 st.1 st.2

/-- Instrumented `fe448_sub`. -/
def fe448_subT (a b : List Nat) : Tr (List Nat) := do
  callT Fn.sub
  let st ← carryLoopT (some Arr.r) (fun i c => do
    let e ← branchT (decide (i = 28))
    let c := if e then i16 (c + 0x1fc) else i16 (c + 0x1fe)
    let x ← readT Arr.a a i
    let c := i16 (c + (x : Int))
    let y ← readT Arr.b b i
    pure (i16 (c - (y : Int)))) 56 0
  foldCarryT Arr.r i16 st.1 st.2

/-- Instrumented `fe448_mul39081`. -/
def fe448_mul39081T (a : List Nat) : Tr (List Nat) := do
  callT Fn.mul39081
  let st ← carryLoopT (some Arr.r) (fun i c => do
    let x ← readT Arr.a a i
    pure (i32 (c + (x : Int) * 39081))) 56 0
  foldCarryT Arr.r i32 st.1 st.2

/-- Instrumented `mulInner`. -/
def mulInnerT (a b : List Nat) (k : Nat) : Nat → Nat → Int → Tr Int
  | 0, _, c => pure c
  | cnt + 1, i, c => do
    iterT i
    let x ← readT Arr.a a i
    let y ← readT Arr.b b (k - i)
    mulInnerT a b k cnt (i + 1) (i32 (c + (x : Int) * (y : Int)))

/-- Instrumented `mulColumn`. -/
def mulColumnT (a b : List Nat) (k : Nat) (c : Int) : Tr Int :=
  if k < 56 then mulInnerT a b k (k + 1) 0 c else mulInnerT a b k (111 - k) (k - 55) c

/-- Instrumented `foldAcc`. -/
def foldAccT (t : List Nat) (i : Nat) (o : Int) : Tr Int :=
  if i < 28 then do
    let x ← readT Arr.t t i
    let o := i16 (o + (x : Int))
    let y ← readT Arr.t t (i + 56)
    let o := i16 (o + (y : Int))
    let z ← readT Arr.t t (i + 84)
    pure (i16 (o + (z : Int)))
  else do
    let x ← readT Arr.t t i
    let o := i16 (o + (x : Int))
    let y ← readT Arr.t t (i + 56)
    let o := i16 (o + (y : Int))
    let z ← readT Arr.t t (i + 28)
    let o := i16 (o + (z : Int))
    let v ← readT Arr.t t (i + 56)
    pure (i16 (o + (v : Int)))

/-- Instrumented `reduceWide`. -/
def reduceWideT (t : List Nat) : Tr (List Nat) := do
  let st ← carryLoopT (some Arr.r) (foldAccT t) 56 0
  foldCarryT Arr.r i16 st.1 st.2

/-- Instrumented `mulWide`. -/
def mulWideT (a b : List Nat) : Tr (List Nat) := do
  let st ← carryLoopT (some Arr.t) (mulColumnT a b) 111 0
  writeT Arr.t 111
  pure (st.1 ++ [u8 st.2])

/-- Instrumented `fe448_mul`. -/
def fe448_mulT (a b : List Nat) : Tr (List Nat) := do
  callT Fn.mul
  let t ← mulWideT a b
  reduceWideT t

/-- Instrumented `sqrInner`. -/
def sqrInnerT (a : List Nat) (k : Nat) : Nat → Nat → Int → Tr Int
  | 0, _, c => pure c
  | cnt + 1, i, c => do
    iterT i
    let stop ← branchT (decide (k - i < i))
    if stop then pure c
    else do
      let x ← readT Arr.a a i
      let y ← readT Arr.a a (k - i)
      let p := i32 ((x : Int) * (y : Int))
      let dbl ← branchT (decide (k - i ≠ i))
      let p := if dbl then i32 (p * 2) else p
      sqrInnerT a k cnt (i + 1) (i32 (c + p))

/-- Instrumented `sqrColumn`. -/
def sqrColumnT (a : List Nat) (k : Nat) (c : Int) : Tr Int :=
  if k < 56 then sqrInnerT a k (k + 1) 0 c else sqrInnerT a k (111 - k) (k - 55) c

/-- Instrumented `sqrWide`. -/
def sqrWideT (a : List Nat) : Tr (List Nat) := do
  let st ← carryLoopT (some Arr.t) (sqrColumnT a) 111 0
  writeT Arr.t 111
  pure (st.1 ++ [u8 st.2])

/-- Instrumented `fe448_sqr`. -/
def fe448_sqrT (a : List Nat) : Tr (List Nat) := do
  callT Fn.sqr
  let t ← sqrWideT a
  let r ← reduceWideT t
  fe448_normT r

/-- Instrumented `sqrMul`. -/
def sqrMulT (a t : List Nat) : Tr (List Nat) := do
  let t ← fe448_sqrT t
  fe448_mulT t a

/-- Instrumented `fe448_invert`. -/
def fe448_invertT (a : List Nat) : Tr (List Nat) := do
  callT Fn.invert
  let t ← fe448_sqrT a
  let t ← fe448_mulT t a
  let t ← repeatT (sqrMulT a) 221 t
  let t ← fe448_sqrT t
  let t ← repeatT (sqrMulT a) 222 t
  let t ← fe448_sqrT t
  let t ← fe448_sqrT t
  fe448_mulT t a

/-- Instrumented `ladderStep`. -/
def ladderStepT (n x1 : List Nat) (i : Nat) (s : Ladder) : Tr Ladder := do
  let nb ← readT Arr.n n (i >>> 3)
  let b := (nb >>> (i &&& 7)) &&& 1
  let swap := s.swap ^^^ b
  let sx ← fe448_cswapT s.x2 s.x3 swap
  let sz ← fe448_cswapT s.z2 s.z3 swap
  let x2 := sx.1
  let x3 := sx.2
  let z2 := sz.1
  let z3 := sz.2
  let t0 ← fe448_addT x2 z2
  let t1 ← fe448_addT x3 z3
  let x2 ← fe448_subT x2 z2
  let x3 ← fe448_subT x3 z3
  let t1 ← fe448_mulT t1 x2
  let z3 ← fe448_mulT x3 t0
  let t0 ← fe448_sqrT t0
  let x2 ← fe448_sqrT x2
  let x3 ← fe448_addT z3 t1
  let x3 ← fe448_sqrT x3
  let z3 ← fe448_subT z3 t1
  let z3 ← fe448_sqrT z3
  let z3 ← fe448_mulT z3 x1
  let t1 ← fe448_subT t0 x2
  let x2 ← fe448_mulT t0 x2
  let z2 ← fe448_mul39081T t1
  let z2 ← fe448_addT t0 z2
  let z2 ← fe448_mulT z2 t1
  pure { x2 := x2, z2 := z2, x3 := x3, z3 := z3, swap := b }

/-- Instrumented `ladderLoop`. -/
def ladderLoopT (n x1 : List Nat) : Nat → Ladder → Tr Ladder
  | 0, s => pure s
  | k + 1, s => do
    iterT k
    let s1 ← ladderStepT n x1 k s
    ladderLoopT n x1 k s1

/-- Instrumented `curve448`. -/
def curve448T (n a : List Nat) : Tr (List Nat) := do
  callT Fn.curve448
  let x1 ← fe448_copyT a
  let x3 ← fe448_copyT a
  let s ← ladderLoopT n x1 448
    { x2 := feConst 1, z2 := feConst 0, x3 := x3, z3 := feConst 1, swap := 0 }
  let sx ← fe448_cswapT s.x2 s.x3 s.swap
  let sz ← fe448_cswapT s.z2 s.z3 s.swap
  let z2 ← fe448_invertT sz.1
  let r ← fe448_mulT sx.1 z2
  fe448_normT r

/-- Instrumented `clamp`. -/
def clampT (n : List Nat) : Tr (List Nat) := do
  let z ← fe448_copyT n
  let z0 ← readT Arr.z z 0
  writeT Arr.z 0
  let z := z.modify (fun _ => z0 &&& 0xfc) 0
  let z55 ← readT Arr.z z 55
  writeT Arr.z 55
  pure (z.modify (fun _ => z55 ||| 0x80) 55)

/-- Instrumented `dropbear_curve448_scalarmult`. -/
def dropbear_curve448_scalarmultT (n p : List Nat) : Tr (List Nat) := do
  let z ← clampT n
  curve448T z p


/-- Ladder variables used where only the recorded events matter. -/
def ladderInit : Ladder := { x2 := [], z2 := [], x3 := [], z3 := [], swap := 0 }

/-- Number of calls of the field operation `f` among recorded events. -/
def callsOf (f : Fn) (l : List Leak) : Nat := l.count (Leak.call f)

/-- Events of `n` iterations of a loop whose body records `body`. -/
def repeatLeak (body : List Leak) : Nat → List Leak
  | 0 => []
  | n + 1 => repeatLeak body n ++ Leak.iter n :: body

/-- Events of `fe448_norm`. -/
def normLeak : List Leak := (fe448_normT []).leak

/-- Events of `fe448_copy`. -/
def copyLeak : List Leak := (fe448_copyT []).leak

/-- Events of `fe448_cswap`. -/
def cswapLeak : List Leak := (fe448_cswapT [] [] 0).leak

/-- Events of `fe448_add`. -/
def addLeak : List Leak := (fe448_addT [] []).leak

/-- Events of `fe448_sub`. -/
def subLeak : List Leak := (fe448_subT [] []).leak

/-- Events of `fe448_mul39081`. -/
def mul39081Leak : List Leak := (fe448_mul39081T []).leak

/-- Events of `fe448_mul`. -/
def mulLeak : List Leak := (fe448_mulT [] []).leak

/-- Events of `fe448_sqr`. -/
def sqrLeak : List Leak := (fe448_sqrT []).leak

/-- Events of `fe448_invert`. -/
def invertLeak : List Leak := (fe448_invertT []).leak

/-- Events of the second pass `foldCarry` on the array `arr`. -/
def foldLeak (arr : Arr) : List Leak := (foldCarryT arr i16 [] 0).leak

/-- Events of the reduction `reduceWide` of the 112-byte accumulator. -/
def reduceLeak : List Leak := (reduceWideT []).leak

/-- Events of the convolution `mulWide`. -/
def mulWideLeak : List Leak := (mulWideT [] []).leak

/-- Events of the half convolution `sqrWide`. -/
def sqrWideLeak : List Leak := (sqrWideT []).leak

/-- Events of iteration `i` of the ladder. -/
def ladderStepLeak (i : Nat) : List Leak := (ladderStepT [] [] i ladderInit).leak

/-- Events of the ladder iterations `k - 1` down to `0`. -/
def ladderLoopLeak (k : Nat) : List Leak := (ladderLoopT [] [] k ladderInit).leak

theorem u8_cast (m : Nat) : u8 (m : Int) = m % 256 := by
  unfold u8; omega

theorem shr8_cast (m : Nat) : shr8 (m : Int) = ((m / 256 : Nat) : Int) := by
  unfold shr8; omega

theorem i16_cast (m : Nat) (h : m < 32768) : i16 (m : Int) = (m : Int) := by
  unfold i16; omega

theorem i32_cast (m : Nat) (h : m < 2147483648) : i32 (m : Int) = (m : Int) := by
  unfold i32; omega

theorem wsum_succ (f : Nat → Nat) (n : Nat) : wsum f (n + 1) = wsum f n + f n * 256 ^ n := rfl

theorem wsum_add (f g : Nat → Nat) (n : Nat) :
    wsum (fun i => f i + g i) n = wsum f n + wsum g n := by
  induction n with
  | zero => rfl
  | succ n ih => simp only [wsum_succ, ih]; ring

theorem wsum_mul_left (k : Nat) (f : Nat → Nat) (n : Nat) :
    wsum (fun i => k * f i) n = k * wsum f n := by
  induction n with
  | zero => rfl
  | succ n ih => simp only [wsum_succ, ih]; ring

theorem wsum_congr {f g : Nat → Nat} {n : Nat} (h : ∀ i, i < n → f i = g i) :
    wsum f n = wsum g n := by
  induction n with
  | zero => rfl
  | succ n ih =>
    simp only [wsum_succ]
    rw [ih (fun i hi => h i (Nat.lt_succ_of_lt hi)), h n (Nat.lt_succ_self n)]

theorem wsum_split (f : Nat → Nat) (m n : Nat) :
    wsum f (m + n) = wsum f m + 256 ^ m * wsum (fun i => f (m + i)) n := by
  induction n with
  | zero => simp [wsum]
  | succ n ih =>
    rw [← Nat.add_assoc, wsum_succ, ih, wsum_succ, pow_add]; ring

theorem wsum_front (f : Nat → Nat) (n : Nat) :
    wsum f (n + 1) = f 0 + 256 * wsum (fun i => f (i + 1)) n := by
  rw [Nat.add_comm n 1, wsum_split f 1 n]
  simp [wsum, Nat.add_comm]

theorem wsum_lt (f : Nat → Nat) (n : Nat) (h : ∀ i, i < n → f i < 256) :
    wsum f n < 256 ^ n := by
  induction n with
  | zero => simp [wsum]
  | succ n ih =>
    have h1 := ih (fun i hi => h i (Nat.lt_succ_of_lt hi))
    have h2 := h n (Nat.lt_succ_self n)
    rw [wsum_succ, pow_succ]
    nlinarith

theorem wsum_digits (v n : Nat) : wsum (fun i => v / 256 ^ i % 256) n = v % 256 ^ n := by
  induction n with
  | zero => simp [wsum, Nat.mod_one]
  | succ n ih =>
    rw [wsum_succ, ih, pow_succ, Nat.mod_mul, Nat.mul_comm]

theorem wsum_val (a : List Nat) : ∀ n, a.length ≤ n → wsum (fun i => a.getD i 0) n = val a := by
  induction a with
  | nil =>
    intro n _
    have : wsum (fun i => ([] : List Nat).getD i 0) n = wsum (fun _ => 0) n :=
      wsum_congr (fun i _ => by simp)
    rw [this]
    have := wsum_mul_left 0 (fun _ => 0) n
    simpa [val] using this
  | cons x xs ih =>
    intro n hn
    cases n with
    | zero => simp at hn
    | succ n =>
      rw [wsum_front]
      simp only [List.getD_cons_zero, List.getD_cons_succ, val]
      rw [ih n (by simpa using hn)]

theorem encN_length (n v : Nat) : (encN n v).length = n := by simp [encN]

theorem encN_succ (n v : Nat) : encN (n + 1) v = encN n v ++ [v / 256 ^ n % 256] := by
  simp [encN, List.range_succ]

theorem encN_add_mul (n v k : Nat) : encN n (v + k * 256 ^ n) = encN n v := by
  unfold encN
  apply List.map_congr_left
  intro i hi
  have hi : i < n := List.mem_range.mp hi
  obtain ⟨d, rfl⟩ : ∃ d, n = i + (d + 1) := ⟨n - i - 1, by omega⟩
  have : k * 256 ^ (i + (d + 1)) = (k * 256 ^ d * 256) * 256 ^ i := by
    rw [pow_add, pow_succ]; ring
  rw [this, Nat.add_mul_div_right _ _ (by positivity)]
  exact Nat.add_mul_mod_self_right _ _ _

theorem carryLoop_spec (acc : Nat → Int → Int) (x : Nat → Nat) (B c0 : Nat) (hc0 : c0 ≤ B) :
    ∀ n, (∀ i (c : Nat), i < n → c ≤ B →
        acc i (c : Int) = ((c + x i : Nat) : Int) ∧ (c + x i) / 256 ≤ B) →
      carryLoop acc n c0 = (encN n (c0 + wsum x n), (((c0 + wsum x n) / 256 ^ n : Nat) : Int))
        ∧ (c0 + wsum x n) / 256 ^ n ≤ B := by
  intro n
  induction n with
  | zero => intro _; simpa [carryLoop, encN, wsum] using hc0
  | succ n ih =>
    intro h
    obtain ⟨ih1, ih2⟩ := ih (fun i c hi hc => h i c (Nat.lt_succ_of_lt hi) hc)
    obtain ⟨h1, h2⟩ := h n _ (Nat.lt_succ_self n) ih2
    have e : (c0 + wsum x (n + 1)) / 256 ^ n = (c0 + wsum x n) / 256 ^ n + x n := by
      rw [wsum_succ, ← Nat.add_assoc, Nat.add_mul_div_right _ _ (by positivity : 0 < 256 ^ n)]
    have e2 : (c0 + wsum x (n + 1)) / 256 ^ (n + 1) = ((c0 + wsum x n) / 256 ^ n + x n) / 256 := by
      rw [pow_succ, ← Nat.div_div_eq_div_mul, e]
    refine ⟨?_, by rw [e2]; exact h2⟩
    simp only [carryLoop, ih1, h1, u8_cast, shr8_cast]
    rw [encN_succ, e, e2, wsum_succ, ← Nat.add_assoc, encN_add_mul]

theorem encN_front (n v : Nat) : encN (n + 1) v = (v % 256) :: encN n (v / 256) := by
  unfold encN
  rw [List.range_succ_eq_map]
  simp only [List.map_cons, List.map_map, pow_zero, Nat.div_one]
  congr 1
  apply List.map_congr_left
  intro i _
  simp only [Function.comp, Nat.succ_eq_add_one, pow_succ', Nat.div_div_eq_div_mul]

theorem encN_val (a : List Nat) (h : ∀ x ∈ a, x < 256) : encN a.length (val a) = a := by
  induction a with
  | nil => rfl
  | cons x xs ih =>
    have hx : x < 256 := h x (List.mem_cons_self _ _)
    have hxs := ih (fun y hy => h y (List.mem_cons_of_mem _ hy))
    rw [List.length_cons, encN_front, val]
    have h1 : (x + 256 * val xs) % 256 = x := by omega
    have h2 : (x + 256 * val xs) / 256 = val xs := by omega
    rw [h1, h2, hxs]

theorem getD_encN (n v i : Nat) :
    (encN n v).getD i 0 = if i < n then v / 256 ^ i % 256 else 0 := by
  unfold encN
  by_cases h : i < n
  · simp [List.getD_eq_getElem?_getD, h, List.getElem?_range h]
  · have h2 : (List.range n)[i]? = none := by
      apply List.getElem?_eq_none
      simp only [List.length_range]; omega
    simp [List.getD_eq_getElem?_getD, h, h2]

theorem val_encN (n v : Nat) : val (encN n v) = v % 256 ^ n := by
  rw [← wsum_val (encN n v) n (by rw [encN_length]), ← wsum_digits]
  apply wsum_congr
  intro i hi
  show (encN n v).getD i 0 = _
  rw [getD_encN, if_pos hi]

theorem encN_mod (n v : Nat) : encN n (v % 256 ^ n) = encN n v := by
  conv_rhs => rw [← Nat.mod_add_div v (256 ^ n), Nat.mul_comm]
  rw [encN_add_mul]

theorem encN_bytes (n v : Nat) : ∀ x ∈ encN n v, x < 256 := by
  intro x hx
  simp only [encN, List.mem_map] at hx
  obtain ⟨i, _, rfl⟩ := hx
  exact Nat.mod_lt _ (by norm_num)

theorem isBuf_enc (v : Nat) : IsBuf (enc v) := ⟨encN_length 56 v, encN_bytes 56 v⟩

theorem enc_val (a : List Nat) (h : IsBuf a) : enc (val a) = a := by
  have := encN_val a h.2
  rwa [h.1] at this

theorem val_enc (v : Nat) : val (enc v) = v % 256 ^ 56 := val_encN 56 v

theorem val_lt (a : List Nat) (h : IsBuf a) : val a < 256 ^ 56 := by
  rw [← enc_val a h, val_enc]
  exact Nat.mod_lt _ (by positivity)

theorem enc_congr {v w : Nat} (h : v % 256 ^ 56 = w % 256 ^ 56) : enc v = enc w := by
  unfold enc
  rw [← encN_mod 56 v, ← encN_mod 56 w, h]

theorem wsum_fold_mask : wsum (fun i => if i = 0 ∨ i = 28 then 1 else 0) 56 = 1 + 256 ^ 28 := by
  decide

theorem getD_lt (a : List Nat) (h : ∀ x ∈ a, x < 256) (i : Nat) : a.getD i 0 < 256 := by
  rw [List.getD_eq_getElem?_getD]
  by_cases hi : i < a.length
  · rw [List.getElem?_eq_getElem hi]
    exact h _ (List.getElem_mem _)
  · rw [List.getElem?_eq_none (by omega)]
    simp

theorem foldCarry_spec (w : Int → Int) (L : Nat) (hw : ∀ m : Nat, m < L → w (m : Int) = (m : Int))
    (r : List Nat) (c B : Nat) (hr : r.length ≤ 56) (hb : ∀ x ∈ r, x < 256)
    (hL : B + c + 255 < L) (hB : (B + c + 255) / 256 ≤ B) :
    foldCarry w r (c : Int) = enc (val r + c * (1 + 256 ^ 28)) := by
  unfold foldCarry
  have h := carryLoop_spec
    (fun i o => w ((if i = 0 ∨ i = 28 then w (o + (c : Int)) else o) + rd r i))
    (fun i => c * (if i = 0 ∨ i = 28 then 1 else 0) + r.getD i 0) B 0 (Nat.zero_le B) 56
    (by
      intro i o _ ho
      have hr' := getD_lt r hb i
      have hdiv : ∀ t : Nat, t ≤ B + c + 255 → t / 256 ≤ B :=
        fun t ht => le_trans (Nat.div_le_div_right ht) hB
      simp only [rd]
      split
      · have e1 : w ((o : Int) + (c : Int)) = ((o + c : Nat) : Int) := by
          rw [← Nat.cast_add]; exact hw _ (by omega)
        have e2 : w (((o + c : Nat) : Int) + ((r.getD i 0 : Nat) : Int))
            = ((o + c + r.getD i 0 : Nat) : Int) := by
          rw [← Nat.cast_add]; exact hw _ (by omega)
        rw [e1, e2]
        exact ⟨by congr 1; ring, hdiv _ (by omega)⟩
      · have e2 : w ((o : Int) + ((r.getD i 0 : Nat) : Int)) = ((o + r.getD i 0 : Nat) : Int) := by
          rw [← Nat.cast_add]; exact hw _ (by omega)
        rw [e2]
        exact ⟨by congr 1; ring, hdiv _ (by omega)⟩)
  have h0 := h.1
  rw [show ((0 : Nat) : Int) = 0 from rfl] at h0
  rw [h0, wsum_add, wsum_mul_left, wsum_fold_mask, wsum_val r 56 hr]
  simp only [enc]
  congr 1
  ring

theorem twoPass_spec (w : Int → Int) (L : Nat) (hw : ∀ m : Nat, m < L → w (m : Int) = (m : Int))
    (acc : Nat → Int → Int) (x : Nat → Nat) (B1 Bf : Nat)
    (h : ∀ i (c : Nat), i < 56 → c ≤ B1 →
      acc i (c : Int) = ((c + x i : Nat) : Int) ∧ (c + x i) / 256 ≤ B1)
    (hL : Bf + B1 + 255 < L) (hB : (Bf + B1 + 255) / 256 ≤ Bf) :
    foldCarry w (carryLoop acc 56 0).1 (carryLoop acc 56 0).2 = enc (foldV (wsum x 56)) := by
  obtain ⟨h0, hc⟩ := carryLoop_spec acc x B1 0 (Nat.zero_le B1) 56 h
  rw [show ((0 : Nat) : Int) = 0 from rfl, Nat.zero_add] at h0
  rw [Nat.zero_add] at hc
  rw [h0, foldCarry_spec w L hw _ _ Bf (by rw [encN_length]) (encN_bytes 56 _) (by omega)
    (le_trans (Nat.div_le_div_right (by omega)) hB), val_encN]
  rfl

theorem norm_arith (A : Nat) (h : A < 256 ^ 56) :
    (A + ((A + (1 + 256 ^ 28)) / 256 ^ 56) * (1 + 256 ^ 28)) % 256 ^ 56 = A % fieldPrime := by
  unfold fieldPrime
  by_cases hA : A < 2 ^ 448 - 2 ^ 224 - 1
  · have h1 : (A + (1 + 256 ^ 28)) / 256 ^ 56 = 0 := Nat.div_eq_of_lt (by omega)
    rw [h1, Nat.mod_eq_of_lt hA, Nat.zero_mul, Nat.add_zero, Nat.mod_eq_of_lt h]
  · have h1 : (A + (1 + 256 ^ 28)) / 256 ^ 56 = 1 := by
      apply Nat.div_eq_of_lt_le <;> omega
    rw [h1, Nat.one_mul, Nat.mod_eq_sub_mod (by omega : A ≥ 2 ^ 448 - 2 ^ 224 - 1),
      Nat.mod_eq_of_lt (by omega : A - (2 ^ 448 - 2 ^ 224 - 1) < 2 ^ 448 - 2 ^ 224 - 1),
      Nat.mod_eq_sub_mod (by omega : A + (1 + 256 ^ 28) ≥ 256 ^ 56),
      Nat.mod_eq_of_lt (by omega)]
    omega

theorem fe448_norm_spec (a : List Nat) (h : IsBuf a) :
    fe448_norm a = enc (val a % fieldPrime) := by
  unfold fe448_norm
  obtain ⟨h0, hc⟩ := carryLoop_spec
    (fun i c => if i = 0 ∨ i = 28 then i16 (i16 (c + rd a i) + 1) else i16 (c + rd a i))
    (fun i => a.getD i 0 + (if i = 0 ∨ i = 28 then 1 else 0)) 1 0 (Nat.zero_le 1) 56
    (by
      intro i o _ ho
      have ha' := getD_lt a h.2 i
      simp only [rd, i16]
      split <;> constructor <;> omega)
  rw [show ((0 : Nat) : Int) = 0 from rfl, Nat.zero_add] at h0
  rw [Nat.zero_add] at hc
  simp only [h0]
  rw [foldCarry_spec i16 32768 i16_cast _ _ 1 (le_of_eq h.1) h.2 (by omega)
    (le_trans (Nat.div_le_div_right (by omega : 1 + _ + 255 ≤ 257)) (by decide)),
    wsum_add, wsum_fold_mask, wsum_val a 56 (le_of_eq h.1)]
  apply enc_congr
  rw [norm_arith _ (val_lt a h)]
  exact (Nat.mod_eq_of_lt (lt_trans (Nat.mod_lt _ (by decide)) (by decide))).symm

theorem fe448_add_spec (a b : List Nat) (ha : IsBuf a) (hb : IsBuf b) :
    fe448_add a b = enc (foldV (val a + val b)) := by
  unfold fe448_add
  rw [twoPass_spec i16 32768 i16_cast _ (fun i => a.getD i 0 + b.getD i 0) 1 1
    (by
      intro i c _ hc
      have ha' := getD_lt a ha.2 i
      have hb' := getD_lt b hb.2 i
      simp only [rd, i16]
      constructor <;> omega)
    (by decide) (by decide)]
  rw [wsum_add, wsum_val a 56 (le_of_eq ha.1), wsum_val b 56 (le_of_eq hb.1)]

theorem fe448_mul39081_spec (a : List Nat) (ha : IsBuf a) :
    fe448_mul39081 a = enc (foldV (39081 * val a)) := by
  unfold fe448_mul39081
  rw [twoPass_spec i32 2147483648 i32_cast _ (fun i => 39081 * a.getD i 0) 39081 154
    (by
      intro i c _ hc
      have ha' := getD_lt a ha.2 i
      simp only [rd, i32]
      constructor <;> omega)
    (by decide) (by decide)]
  rw [wsum_mul_left, wsum_val a 56 (le_of_eq ha.1)]

theorem wsum_subOffset : wsum subOffset 56 = 2 * fieldPrime := by decide

theorem fe448_sub_spec (a b : List Nat) (ha : IsBuf a) (hb : IsBuf b) :
    fe448_sub a b = enc (foldV (val a + 2 * fieldPrime - val b)) := by
  unfold fe448_sub
  rw [twoPass_spec i16 32768 i16_cast _ (fun i => subOffset i + a.getD i 0 - b.getD i 0) 2 2
    (by
      intro i c _ hc
      have ha' := getD_lt a ha.2 i
      have hb' := getD_lt b hb.2 i
      simp only [rd, subOffset, i16]
      split <;> constructor <;> omega)
    (by decide) (by decide)]
  have hsum : wsum (fun i => subOffset i + a.getD i 0 - b.getD i 0) 56 + val b
      = val a + 2 * fieldPrime := by
    rw [← wsum_val b 56 (le_of_eq hb.1), ← wsum_add, ← wsum_val a 56 (le_of_eq ha.1),
      ← wsum_subOffset, ← wsum_add]
    apply wsum_congr
    intro i _
    have hb' := getD_lt b hb.2 i
    simp only [subOffset]
    split <;> omega
  rw [← hsum, Nat.add_sub_cancel]

theorem convFrom_le (a b : List Nat) (ha : ∀ x ∈ a, x < 256) (hb : ∀ x ∈ b, x < 256) (k : Nat) :
    ∀ (cnt i : Nat), convFrom a b k cnt i ≤ cnt * 65025 := by
  intro cnt
  induction cnt with
  | zero => intro i; simp [convFrom]
  | succ cnt ih =>
    intro i
    have h1 : a.getD i 0 * b.getD (k - i) 0 ≤ 255 * 255 :=
      Nat.mul_le_mul (Nat.le_of_lt_succ (getD_lt a ha i)) (Nat.le_of_lt_succ (getD_lt b hb (k - i)))
    have h2 := ih (i + 1)
    simp only [convFrom]
    omega

theorem mulInner_eq (a b : List Nat) (ha : ∀ x ∈ a, x < 256) (hb : ∀ x ∈ b, x < 256) (k : Nat) :
    ∀ (cnt i c : Nat), c + cnt * 65025 < 2147483648 →
      mulInner a b k cnt i (c : Int) = ((c + convFrom a b k cnt i : Nat) : Int) := by
  intro cnt
  induction cnt with
  | zero => intro i c _; simp [mulInner, convFrom]
  | succ cnt ih =>
    intro i c hc
    have h1 : a.getD i 0 * b.getD (k - i) 0 ≤ 255 * 255 :=
      Nat.mul_le_mul (Nat.le_of_lt_succ (getD_lt a ha i)) (Nat.le_of_lt_succ (getD_lt b hb (k - i)))
    have h : i32 ((c : Int) + rd a i * rd b (k - i))
        = ((c + a.getD i 0 * b.getD (k - i) 0 : Nat) : Int) := by
      rw [← i32_cast _ (by omega : c + a.getD i 0 * b.getD (k - i) 0 < 2147483648)]
      simp only [rd]; push_cast; rfl
    rw [mulInner, h, ih _ _ (by omega), convFrom, Nat.add_assoc]

theorem convFrom_append (a b : List Nat) (k : Nat) :
    ∀ (m n i : Nat), convFrom a b k (m + n) i = convFrom a b k m i + convFrom a b k n (i + m) := by
  intro m
  induction m with
  | zero => intro n i; simp [convFrom]
  | succ m ih =>
    intro n i
    rw [Nat.add_right_comm m 1 n, convFrom, convFrom, ih, Nat.add_assoc i 1 m,
      Nat.add_comm 1 m, Nat.add_assoc]

theorem convFrom_zero (a b : List Nat) (k : Nat) :
    ∀ (cnt i : Nat), (∀ j, i ≤ j → j < i + cnt → a.getD j 0 * b.getD (k - j) 0 = 0) →
      convFrom a b k cnt i = 0 := by
  intro cnt
  induction cnt with
  | zero => intro i _; rfl
  | succ cnt ih =>
    intro i h
    rw [convFrom, h i (le_refl i) (by omega),
      ih (i + 1) (fun j h1 h2 => h j (by omega) (by omega))]

theorem getD_of_le (a : List Nat) (i : Nat) (h : a.length ≤ i) : a.getD i 0 = 0 := by
  rw [List.getD_eq_getElem?_getD, List.getElem?_eq_none h]; rfl

theorem convFrom_full (a b : List Nat) (ha : a.length ≤ 56) (hb : b.length ≤ 56) (k : Nat)
    (h1 : 56 ≤ k) (h2 : k < 111) :
    convFrom a b k (111 - k) (k - 55) = convFrom a b k (k + 1) 0 := by
  have e : k + 1 = (k - 55) + ((111 - k) + (k - 55)) := by omega
  rw [e, convFrom_append, convFrom_append]
  rw [convFrom_zero a b k (k - 55) 0, convFrom_zero a b k (k - 55) (0 + (k - 55) + (111 - k))]
  · simp
  · intro j hj _
    rw [getD_of_le a j (by omega), Nat.zero_mul]
  · intro j _ hj
    rw [getD_of_le b (k - j) (by omega), Nat.mul_zero]

theorem mulColumn_eq (a b : List Nat) (ha : IsBuf a) (hb : IsBuf b) (k c : Nat)
    (hk : k < 111) (hc : c ≤ 15000) :
    mulColumn a b k (c : Int) = ((c + convFrom a b k (k + 1) 0 : Nat) : Int)
      ∧ (c + convFrom a b k (k + 1) 0) / 256 ≤ 15000 := by
  unfold mulColumn
  split
  · have hle := convFrom_le a b ha.2 hb.2 k (k + 1) 0
    exact ⟨mulInner_eq a b ha.2 hb.2 k (k + 1) 0 c (by omega), by omega⟩
  · have hle := convFrom_le a b ha.2 hb.2 k (111 - k) (k - 55)
    rw [mulInner_eq a b ha.2 hb.2 k _ _ c (by omega),
      convFrom_full a b (le_of_eq ha.1) (le_of_eq hb.1) k (by omega) hk]
    rw [convFrom_full a b (le_of_eq ha.1) (le_of_eq hb.1) k (by omega) hk] at hle
    exact ⟨rfl, by omega⟩

theorem convFrom_cons (x : Nat) (xs b : List Nat) (k : Nat) :
    ∀ (cnt i : Nat), convFrom (x :: xs) b k cnt (i + 1) = convFrom xs b (k - 1) cnt i := by
  intro cnt
  induction cnt with
  | zero => intro i; rfl
  | succ cnt ih =>
    intro i
    rw [convFrom, convFrom, ih, List.getD_cons_succ, show k - (i + 1) = k - 1 - i by omega]

theorem convFrom_nil (b : List Nat) (k : Nat) : ∀ (cnt i : Nat), convFrom [] b k cnt i = 0 := by
  intro cnt i
  apply convFrom_zero
  intro j _ _
  simp

theorem wsum_zero (n : Nat) : wsum (fun _ => 0) n = 0 := by
  have := wsum_mul_left 0 (fun _ => 0) n
  simpa using this

theorem wsum_conv (b : List Nat) :
    ∀ (a : List Nat) (n : Nat), a.length + b.length ≤ n + 1 →
      wsum (fun k => convFrom a b k (k + 1) 0) n = val a * val b := by
  intro a
  induction a with
  | nil =>
    intro n _
    simp only [convFrom_nil, wsum_zero, val, Nat.zero_mul]
  | cons x xs ih =>
    intro n hn
    cases n with
    | zero =>
      have hb : b = [] := by
        apply List.eq_nil_of_length_eq_zero
        simp only [List.length_cons] at hn; omega
      subst hb
      simp [wsum, val]
    | succ n =>
      simp only [List.length_cons] at hn
      rw [wsum_front]
      have hstep : ∀ k, convFrom (x :: xs) b (k + 1) (k + 1 + 1) 0
          = x * b.getD (k + 1) 0 + convFrom xs b k (k + 1) 0 := by
        intro k
        rw [convFrom, convFrom_cons]
        simp
      simp only [hstep]
      rw [wsum_add, wsum_mul_left, ih n (by omega)]
      have hb : b.getD 0 0 + 256 * wsum (fun k => b.getD (k + 1) 0) n = val b := by
        rw [← wsum_front (fun k => b.getD k 0), wsum_val b (n + 1) (by omega)]
      simp only [convFrom, List.getD_cons_zero, Nat.sub_zero, Nat.add_zero, val]
      rw [← hb]
      ring

theorem mulWide_spec (a b : List Nat) (ha : IsBuf a) (hb : IsBuf b) :
    mulWide a b = encN 112 (val a * val b) := by
  unfold mulWide
  have h0 := (carryLoop_spec (mulColumn a b) (fun k => convFrom a b k (k + 1) 0) 15000 0
    (Nat.zero_le _) 111 (fun i c hi hc => mulColumn_eq a b ha hb i c hi hc)).1
  rw [show ((0 : Nat) : Int) = 0 from rfl, Nat.zero_add,
    wsum_conv b a 111 (by rw [ha.1, hb.1])] at h0
  simp only [h0, u8_cast]
  exact (encN_succ 111 _).symm

theorem wsum_digits_shift (v k n : Nat) :
    wsum (fun i => v / 256 ^ (i + k) % 256) n = v / 256 ^ k % 256 ^ n := by
  rw [← wsum_digits]
  apply wsum_congr
  intro i _
  show v / 256 ^ (i + k) % 256 = v / 256 ^ k / 256 ^ i % 256
  rw [Nat.div_div_eq_div_mul, ← pow_add, Nat.add_comm]

theorem reduceWide_spec (T : Nat) : reduceWide (encN 112 T) = enc (foldV (fold1V T)) := by
  unfold reduceWide
  rw [twoPass_spec i16 32768 i16_cast _ (fun i =>
      if i < 28 then T / 256 ^ i % 256 + T / 256 ^ (i + 56) % 256 + T / 256 ^ (i + 84) % 256
      else T / 256 ^ i % 256 + T / 256 ^ (i + 56) % 256 + T / 256 ^ (i + 28) % 256
        + T / 256 ^ (i + 56) % 256) 4 2
    (by
      intro i c hi hc
      have d0 : T / 256 ^ i % 256 < 256 := Nat.mod_lt _ (by norm_num)
      have d1 : T / 256 ^ (i + 56) % 256 < 256 := Nat.mod_lt _ (by norm_num)
      have d2 : T / 256 ^ (i + 84) % 256 < 256 := Nat.mod_lt _ (by norm_num)
      have d3 : T / 256 ^ (i + 28) % 256 < 256 := Nat.mod_lt _ (by norm_num)
      simp only [foldAcc, rd, getD_encN]
      split
      · rw [if_pos (by omega), if_pos (by omega), if_pos (by omega)]
        simp only [i16]
        constructor <;> omega
      · rw [if_pos (by omega), if_pos (by omega), if_pos (by omega)]
        simp only [i16]
        constructor <;> omega)
    (by decide) (by decide)]
  congr 2
  rw [show (56 : Nat) = 28 + 28 from rfl, wsum_split]
  have e1 : wsum (fun i =>
      if i < 28 then T / 256 ^ i % 256 + T / 256 ^ (i + 56) % 256 + T / 256 ^ (i + 84) % 256
      else T / 256 ^ i % 256 + T / 256 ^ (i + 56) % 256 + T / 256 ^ (i + 28) % 256
        + T / 256 ^ (i + 56) % 256) 28
      = wsum (fun i => T / 256 ^ i % 256 + T / 256 ^ (i + 56) % 256
          + T / 256 ^ (i + 84) % 256) 28 :=
    wsum_congr (fun i hi => by simp only [if_pos hi])
  have e2 : wsum (fun j => (fun i =>
      if i < 28 then T / 256 ^ i % 256 + T / 256 ^ (i + 56) % 256 + T / 256 ^ (i + 84) % 256
      else T / 256 ^ i % 256 + T / 256 ^ (i + 56) % 256 + T / 256 ^ (i + 28) % 256
        + T / 256 ^ (i + 56) % 256) (28 + j)) 28
      = wsum (fun j => T / 256 ^ (j + 28) % 256 + T / 256 ^ (j + 84) % 256
          + T / 256 ^ (j + 56) % 256 + T / 256 ^ (j + 84) % 256) 28 :=
    wsum_congr (fun j _ => by
      simp only [if_neg (by omega : ¬ 28 + j < 28)]
      rw [show 28 + j = j + 28 by omega, show j + 28 + 56 = j + 84 by omega,
        show j + 28 + 28 = j + 56 by omega])
  rw [e1, e2]
  simp only [wsum_add, wsum_digits_shift, wsum_digits]
  unfold fold1V
  have hs : ∀ X : Nat, X % 256 ^ 56 = X % 256 ^ 28 + 256 ^ 28 * (X / 256 ^ 28 % 256 ^ 28) := by
    intro X
    rw [show (256 : Nat) ^ 56 = 256 ^ 28 * 256 ^ 28 by norm_num, Nat.mod_mul]
  have hd : T / 256 ^ 56 / 256 ^ 28 = T / 256 ^ 84 := by
    rw [Nat.div_div_eq_div_mul, ← pow_add]
  rw [hs T, hs (T / 256 ^ 56), hd]
  ring

theorem fe448_mul_spec (a b : List Nat) (ha : IsBuf a) (hb : IsBuf b) :
    fe448_mul a b = enc (foldV (fold1V (val a * val b))) := by
  unfold fe448_mul
  rw [mulWide_spec a b ha hb, reduceWide_spec]

theorem sqrInner_break (a : List Nat) (k cnt i : Nat) (c : Int) (h : k - i < i) :
    sqrInner a k cnt i c = c := by
  cases cnt with
  | zero => rfl
  | succ cnt => rw [sqrInner, if_pos h]

theorem convFrom_succ (a b : List Nat) (k cnt i : Nat) :
    convFrom a b k (cnt + 1) i = a.getD i 0 * b.getD (k - i) 0 + convFrom a b k cnt (i + 1) := rfl

theorem convFrom_last (a b : List Nat) (k cnt i : Nat) :
    convFrom a b k (cnt + 1) i
      = convFrom a b k cnt i + a.getD (i + cnt) 0 * b.getD (k - (i + cnt)) 0 := by
  rw [convFrom_append a b k cnt 1 i, convFrom_succ]
  simp [convFrom]

theorem sqrInner_step (a : List Nat) (ha : ∀ x ∈ a, x < 256) (k cnt i c : Nat)
    (h : ¬ k - i < i) (hc : c + 2 * 65025 < 2147483648) :
    sqrInner a k (cnt + 1) i (c : Int)
      = sqrInner a k cnt (i + 1)
          ((c + (if k - i ≠ i then a.getD i 0 * a.getD (k - i) 0 * 2
            else a.getD i 0 * a.getD (k - i) 0) : Nat) : Int) := by
  have h1 : a.getD i 0 * a.getD (k - i) 0 ≤ 255 * 255 :=
    Nat.mul_le_mul (Nat.le_of_lt_succ (getD_lt a ha i)) (Nat.le_of_lt_succ (getD_lt a ha (k - i)))
  have hp : i32 (rd a i * rd a (k - i)) = ((a.getD i 0 * a.getD (k - i) 0 : Nat) : Int) := by
    rw [← i32_cast _ (by omega : a.getD i 0 * a.getD (k - i) 0 < 2147483648)]
    simp only [rd]; push_cast; rfl
  have hp2 : i32 (((a.getD i 0 * a.getD (k - i) 0 : Nat) : Int) * 2)
      = ((a.getD i 0 * a.getD (k - i) 0 * 2 : Nat) : Int) := by
    rw [← i32_cast _ (by omega : a.getD i 0 * a.getD (k - i) 0 * 2 < 2147483648)]
    push_cast; rfl
  rw [sqrInner, if_neg h]
  simp only [hp]
  by_cases hne : k - i ≠ i
  · simp only [if_pos hne, hp2]
    rw [← Nat.cast_add, i32_cast _ (by omega)]
  · simp only [if_neg hne]
    rw [← Nat.cast_add, i32_cast _ (by omega)]

theorem sqrInner_eq (a : List Nat) (ha : ∀ x ∈ a, x < 256) :
    ∀ (d lo cnt c : Nat), d / 2 + 1 ≤ cnt → c + (d + 2) * 65025 < 2147483648 →
      sqrInner a (2 * lo + d) cnt lo (c : Int)
        = ((c + convFrom a a (2 * lo + d) (d + 1) lo : Nat) : Int) := by
  intro d
  induction d using Nat.strong_induction_on with
  | _ d ih =>
    intro lo cnt c hcnt hc
    obtain ⟨cnt, rfl⟩ : ∃ m, cnt = m + 1 := ⟨cnt - 1, by omega⟩
    match d, ih, hcnt, hc with
    | 0, _, _, hc =>
      have e : 2 * lo + 0 - lo = lo := by omega
      rw [sqrInner_step a ha _ _ _ _ (by omega) (by omega),
        sqrInner_break a _ _ _ _ (by omega), convFrom_succ, e]
      simp [convFrom]
    | 1, _, _, hc =>
      have e : 2 * lo + 1 - lo = lo + 1 := by omega
      have e' : 2 * lo + 1 - (lo + 1) = lo := by omega
      rw [sqrInner_step a ha _ _ _ _ (by omega) (by omega),
        sqrInner_break a _ _ _ _ (by omega), convFrom_succ, convFrom_succ, e, e']
      simp only [convFrom, ne_eq, Nat.succ_ne_self, not_false_eq_true, if_true, Nat.add_zero]
      congr 1
      ring
    | d + 2, ih, hcnt, hc =>
      have e : 2 * lo + (d + 2) - lo = lo + d + 2 := by omega
      have hne : lo + d + 2 ≠ lo := by omega
      have hk : 2 * lo + (d + 2) = 2 * (lo + 1) + d := by ring
      have e2 : 2 * lo + (d + 2) - (lo + 1 + (d + 1)) = lo := by omega
      have h1 : a.getD lo 0 * a.getD (lo + d + 2) 0 ≤ 255 * 255 :=
        Nat.mul_le_mul (Nat.le_of_lt_succ (getD_lt a ha lo))
          (Nat.le_of_lt_succ (getD_lt a ha (lo + d + 2)))
      have hR : convFrom a a (2 * lo + (d + 2)) (d + 2 + 1) lo
          = a.getD lo 0 * a.getD (lo + d + 2) 0
            + (convFrom a a (2 * lo + (d + 2)) (d + 1) (lo + 1)
              + a.getD (lo + d + 2) 0 * a.getD lo 0) := by
        rw [convFrom_succ, convFrom_last a a _ (d + 1) (lo + 1), e, e2,
          show lo + 1 + (d + 1) = lo + d + 2 by omega]
      rw [sqrInner_step a ha _ _ _ _ (by omega) (by omega), e, if_pos hne, hR, hk,
        ih d (by omega) (lo + 1) cnt _ (by omega) (by omega)]
      congr 1
      ring

theorem sqrColumn_eq (a : List Nat) (ha : IsBuf a) (k c : Nat) (hk : k < 111)
    (hc : c ≤ 15000) :
    sqrColumn a k (c : Int) = mulColumn a a k (c : Int) := by
  unfold sqrColumn mulColumn
  split
  · have := sqrInner_eq a ha.2 k 0 (k + 1) c (by omega) (by omega)
    simp only [Nat.mul_zero, Nat.zero_add] at this
    rw [this, mulInner_eq a a ha.2 ha.2 k _ _ c (by omega)]
  · have := sqrInner_eq a ha.2 (110 - k) (k - 55) (111 - k) c (by omega) (by omega)
    rw [show 2 * (k - 55) + (110 - k) = k by omega, show 110 - k + 1 = 111 - k by omega] at this
    rw [this, mulInner_eq a a ha.2 ha.2 k _ _ c (by omega)]

theorem sqrWide_spec (a : List Nat) (ha : IsBuf a) :
    sqrWide a = encN 112 (val a * val a) := by
  unfold sqrWide
  have h0 := (carryLoop_spec (sqrColumn a) (fun k => convFrom a a k (k + 1) 0) 15000 0
    (Nat.zero_le _) 111 (fun i c hi hc => by
      rw [sqrColumn_eq a ha i c hi hc]
      exact mulColumn_eq a a ha ha i c hi hc)).1
  rw [show ((0 : Nat) : Int) = 0 from rfl, Nat.zero_add,
    wsum_conv a a 111 (by rw [ha.1])] at h0
  simp only [h0, u8_cast]
  exact (encN_succ 111 _).symm

theorem fe448_sqr_spec (a : List Nat) (ha : IsBuf a) :
    fe448_sqr a = enc (foldV (fold1V (val a * val a)) % 256 ^ 56 % fieldPrime) := by
  unfold fe448_sqr
  rw [sqrWide_spec a ha, reduceWide_spec, fe448_norm_spec _ (isBuf_enc _), val_enc]

theorem map_getD_range (a : List Nat) :
    (List.range a.length).map (fun i => a.getD i 0) = a := by
  apply List.ext_getElem (by simp)
  intro i h1 h2
  simp [List.getD_eq_getElem?_getD, List.getElem?_eq_getElem h2]

theorem fe448_copy_spec (a : List Nat) (h : a.length = 56) : fe448_copy a = a := by
  unfold fe448_copy
  rw [← h]
  exact map_getD_range a

theorem getD_map_range (f : Nat → Nat) (n i : Nat) (h : i < n) :
    ((List.range n).map f).getD i 0 = f i := by
  simp [List.getD_eq_getElem?_getD, List.getElem?_range h]

theorem fe448_cswap_zero (a b : List Nat) (ha : a.length = 56) (hb : b.length = 56) :
    fe448_cswap a b 0 = (a, b) := by
  unfold fe448_cswap
  have h1 : ∀ l : List Nat, l.length = 56 →
      (List.range 56).map (fun i => l.getD i 0 ^^^
        ((List.range 56).map (fun i => (a.getD i 0 ^^^ b.getD i 0) &&& ((256 - 0 % 256) % 256))).getD i 0)
      = l := by
    intro l hl
    have : (List.range 56).map (fun i => l.getD i 0) = l := by
      rw [← hl]; exact map_getD_range l
    conv_rhs => rw [← this]
    apply List.map_congr_left
    intro i hi
    rw [getD_map_range _ _ _ (List.mem_range.mp hi)]
    simp
  simp only [h1 a ha, h1 b hb]

theorem xor_and_mask (x y : Nat) (hx : x < 256) (hy : y < 256) :
    (x ^^^ y) &&& 255 = x ^^^ y := by
  have h : x ^^^ y < 2 ^ 8 := Nat.xor_lt_two_pow (by simpa using hx) (by simpa using hy)
  have := Nat.and_pow_two_sub_one_eq_mod (x ^^^ y) 8
  simp only [Nat.reducePow, Nat.add_one_sub_one] at this
  rw [this]
  exact Nat.mod_eq_of_lt h

theorem fe448_cswap_one (a b : List Nat) (ha : IsBuf a) (hb : IsBuf b) :
    fe448_cswap a b 1 = (b, a) := by
  unfold fe448_cswap
  have ea : (List.range 56).map (fun i => a.getD i 0) = a := by
    rw [← ha.1]; exact map_getD_range a
  have eb : (List.range 56).map (fun i => b.getD i 0) = b := by
    rw [← hb.1]; exact map_getD_range b
  have h1 : (List.range 56).map (fun i => a.getD i 0 ^^^
        ((List.range 56).map (fun i => (a.getD i 0 ^^^ b.getD i 0) &&& ((256 - 1 % 256) % 256))).getD i 0)
      = b := by
    conv_rhs => rw [← eb]
    apply List.map_congr_left
    intro i hi
    rw [getD_map_range _ _ _ (List.mem_range.mp hi)]
    show a.getD i 0 ^^^ ((a.getD i 0 ^^^ b.getD i 0) &&& 255) = b.getD i 0
    rw [xor_and_mask _ _ (getD_lt a ha.2 i) (getD_lt b hb.2 i), ← Nat.xor_assoc, Nat.xor_self,
      Nat.zero_xor]
  have h2 : (List.range 56).map (fun i => b.getD i 0 ^^^
        ((List.range 56).map (fun i => (a.getD i 0 ^^^ b.getD i 0) &&& ((256 - 1 % 256) % 256))).getD i 0)
      = a := by
    conv_rhs => rw [← ea]
    apply List.map_congr_left
    intro i hi
    rw [getD_map_range _ _ _ (List.mem_range.mp hi)]
    show b.getD i 0 ^^^ ((a.getD i 0 ^^^ b.getD i 0) &&& 255) = a.getD i 0
    rw [xor_and_mask _ _ (getD_lt a ha.2 i) (getD_lt b hb.2 i), Nat.xor_comm (a.getD i 0),
      ← Nat.xor_assoc, Nat.xor_self, Nat.zero_xor]
  simp only [h1, h2]

theorem fe448_norm_enc (x : Nat) : fe448_norm (enc x) = enc (normW x) := by
  rw [fe448_norm_spec _ (isBuf_enc x), val_enc]; rfl

theorem fe448_add_enc (x y : Nat) : fe448_add (enc x) (enc y) = enc (addW x y) := by
  rw [fe448_add_spec _ _ (isBuf_enc x) (isBuf_enc y), val_enc, val_enc]; rfl

theorem fe448_sub_enc (x y : Nat) : fe448_sub (enc x) (enc y) = enc (subW x y) := by
  rw [fe448_sub_spec _ _ (isBuf_enc x) (isBuf_enc y), val_enc, val_enc]; rfl

theorem fe448_mul39081_enc (x : Nat) : fe448_mul39081 (enc x) = enc (m39W x) := by
  rw [fe448_mul39081_spec _ (isBuf_enc x), val_enc]; rfl

theorem fe448_mul_enc (x y : Nat) : fe448_mul (enc x) (enc y) = enc (mulW x y) := by
  rw [fe448_mul_spec _ _ (isBuf_enc x) (isBuf_enc y), val_enc, val_enc]; rfl

theorem fe448_sqr_enc (x : Nat) : fe448_sqr (enc x) = enc (sqrW x) := by
  rw [fe448_sqr_spec _ (isBuf_enc x), val_enc]; rfl

theorem fe448_cswap_enc (x y c : Nat) (hc : c ≤ 1) :
    fe448_cswap (enc x) (enc y) c = (enc (cswapV x y c).1, enc (cswapV x y c).2) := by
  have h : c = 0 ∨ c = 1 := by omega
  rcases h with rfl | rfl
  · rw [fe448_cswap_zero _ _ (isBuf_enc x).1 (isBuf_enc y).1]; rfl
  · rw [fe448_cswap_one _ _ (isBuf_enc x) (isBuf_enc y)]; rfl

theorem scalarBit_le (n : List Nat) (i : Nat) :
    (n.getD (i >>> 3) 0 >>> (i &&& 7)) &&& 1 ≤ 1 := Nat.and_le_right

theorem xor_le_one (a b : Nat) (ha : a ≤ 1) (hb : b ≤ 1) : a ^^^ b ≤ 1 := by
  have : a ^^^ b < 2 ^ 1 := Nat.xor_lt_two_pow (by omega) (by omega)
  omega

theorem ladderStep_enc (n : List Nat) (x1 i : Nat) (s : LadderV) (hs : s.swap ≤ 1) :
    ladderStep n (enc x1) i (encL s) = encL (ladderStepV n x1 i s) := by
  have hsw := xor_le_one _ _ hs (scalarBit_le n i)
  simp only [ladderStep, ladderStepV, encL, fe448_cswap_enc _ _ _ hsw, fe448_add_enc,
    fe448_sub_enc, fe448_mul_enc, fe448_sqr_enc, fe448_mul39081_enc]

theorem ladderStepV_swap (n : List Nat) (x1 i : Nat) (s : LadderV) :
    (ladderStepV n x1 i s).swap ≤ 1 := scalarBit_le n i

theorem ladderLoopV_swap (n : List Nat) (x1 : Nat) :
    ∀ (k : Nat) (s : LadderV), s.swap ≤ 1 → (ladderLoopV n x1 k s).swap ≤ 1 := by
  intro k
  induction k with
  | zero => intro s hs; exact hs
  | succ k ih => intro s _; exact ih _ (ladderStepV_swap n x1 k s)

theorem ladderLoop_enc (n : List Nat) (x1 : Nat) :
    ∀ (k : Nat) (s : LadderV), s.swap ≤ 1 →
      ladderLoop n (enc x1) k (encL s) = encL (ladderLoopV n x1 k s) := by
  intro k
  induction k with
  | zero => intro s _; rfl
  | succ k ih =>
    intro s hs
    rw [ladderLoop, ladderStep_enc n x1 k s hs, ih _ (ladderStepV_swap n x1 k s), ladderLoopV]

theorem sqrMul_iterate_enc (a : Nat) :
    ∀ (k t : Nat), (sqrMul (enc a))^[k] (enc t) = enc ((sqrMulW a)^[k] t) := by
  intro k
  induction k with
  | zero => intro t; rfl
  | succ k ih =>
    intro t
    rw [Function.iterate_succ_apply, Function.iterate_succ_apply, ← ih]
    simp only [sqrMul, sqrMulW, fe448_sqr_enc, fe448_mul_enc]

theorem fe448_invert_enc (a : Nat) : fe448_invert (enc a) = enc (invertW a) := by
  simp only [fe448_invert, invertW, fe448_sqr_enc, fe448_mul_enc, sqrMul_iterate_enc]

theorem feConst_enc (v : Nat) (h : v < 256) : feConst v = enc v := by
  have hb : IsBuf (feConst v) := by
    refine ⟨by simp [feConst], ?_⟩
    intro x hx
    simp only [feConst, List.mem_cons, List.mem_replicate] at hx
    rcases hx with rfl | ⟨_, rfl⟩
    · exact h
    · decide
  rw [← enc_val _ hb]
  congr 1

theorem curve448_enc (n : List Nat) (u : Nat) : curve448 n (enc u) = enc (curve448W n u) := by
  unfold curve448 curve448W
  simp only [fe448_copy_spec _ (isBuf_enc u).1, feConst_enc 1 (by decide),
    feConst_enc 0 (by decide)]
  have h0 : ({ x2 := enc 1, z2 := enc 0, x3 := enc u, z3 := enc 1, swap := 0 } : Ladder)
      = encL { x2 := 1, z2 := 0, x3 := u, z3 := 1, swap := 0 } := rfl
  have hsw := ladderLoopV_swap n u 448 { x2 := 1, z2 := 0, x3 := u, z3 := 1, swap := 0 }
    (Nat.zero_le 1)
  rw [h0, ladderLoop_enc n u 448 _ (Nat.zero_le 1)]
  simp only [encL, fe448_cswap_enc _ _ _ hsw, fe448_invert_enc, fe448_mul_enc, fe448_norm_enc]

theorem curve448_spec (n a : List Nat) (ha : IsBuf a) :
    curve448 n a = enc (curve448W n (val a)) := by
  rw [← curve448_enc, enc_val a ha]

/-! ## Lemmas: shape of the outputs, clamping, reference exponentiation -/

theorem u8_lt (c : Int) : u8 c < 256 := by
  unfold u8; omega

theorem carryLoop_isBytes (acc : Nat → Int → Int) :
    ∀ (n : Nat) (c : Int),
      (carryLoop acc n c).1.length = n ∧ ∀ x ∈ (carryLoop acc n c).1, x < 256 := by
  intro n
  induction n with
  | zero => intro c; simp [carryLoop]
  | succ n ih =>
    intro c
    obtain ⟨h1, h2⟩ := ih c
    refine ⟨by simp [carryLoop, h1], ?_⟩
    intro x hx
    simp only [carryLoop, List.mem_append, List.mem_singleton] at hx
    rcases hx with hx | rfl
    · exact h2 x hx
    · exact u8_lt _

theorem foldCarry_isBuf (w : Int → Int) (r : List Nat) (c : Int) : IsBuf (foldCarry w r c) :=
  carryLoop_isBytes _ 56 0

theorem fe448_mul_isBuf (a b : List Nat) : IsBuf (fe448_mul a b) :=
  foldCarry_isBuf _ _ _

theorem fe448_norm_isBuf (a : List Nat) : IsBuf (fe448_norm a) :=
  foldCarry_isBuf _ _ _

theorem fieldPrime_pos : 0 < fieldPrime := by decide

theorem val_norm_lt (a : List Nat) (h : IsBuf a) : val (fe448_norm a) < fieldPrime := by
  rw [fe448_norm_spec a h, val_enc]
  exact lt_of_le_of_lt (Nat.mod_le _ _) (Nat.mod_lt _ fieldPrime_pos)

theorem val_norm_eq (a : List Nat) (h : IsBuf a) : val (fe448_norm a) = val a % fieldPrime := by
  rw [fe448_norm_spec a h, val_enc]
  exact Nat.mod_eq_of_lt (lt_trans (Nat.mod_lt _ fieldPrime_pos) (by decide))

theorem modify_map_range (f : Nat → Nat) (g : Nat → Nat) (k n : Nat) :
    ((List.range n).map g).modify f k
      = (List.range n).map (fun i => if i = k then f (g i) else g i) := by
  apply List.ext_getElem?
  intro i
  rw [List.getElem?_modify]
  by_cases hi : i < n
  · simp only [List.getElem?_map, List.getElem?_range hi, Option.map_some', Option.map_eq_map]
    by_cases hk : k = i
    · simp [hk]
    · have hk' : ¬ i = k := fun h => hk h.symm
      simp [hk, hk']
  · have h2 : (List.range n)[i]? = none := by
      apply List.getElem?_eq_none
      simp only [List.length_range]; omega
    simp [h2]

theorem clamp_eq_clampSpec (n : List Nat) : clamp n = clampSpec n := by
  unfold clamp clampSpec fe448_copy
  rw [modify_map_range, modify_map_range]
  apply List.map_congr_left
  intro i _
  by_cases h0 : i = 0
  · subst h0; simp
  · by_cases h55 : i = 55
    · subst h55; simp
    · simp [h0, h55]

theorem and_fc_eq : ∀ x, x < 256 → x &&& 0xfc = x / 4 * 4 := by decide!

theorem or_80_eq : ∀ x, x < 256 → x ||| 0x80 = x % 128 + 128 := by decide!

theorem clampSpec_congr (n m : List Nat) (hn : IsBuf n) (hm : IsBuf m)
    (h0 : n.getD 0 0 / 4 = m.getD 0 0 / 4)
    (hmid : ∀ i, i < 55 → 0 < i → n.getD i 0 = m.getD i 0)
    (h55 : n.getD 55 0 % 128 = m.getD 55 0 % 128) :
    clampSpec n = clampSpec m := by
  unfold clampSpec
  apply List.map_congr_left
  intro i hi
  have hi : i < 56 := List.mem_range.mp hi
  by_cases c0 : i = 0
  · simp only [c0, if_true]
    rw [and_fc_eq _ (getD_lt n hn.2 0), and_fc_eq _ (getD_lt m hm.2 0), h0]
  · by_cases c55 : i = 55
    · simp only [c55, if_true]
      rw [or_80_eq _ (getD_lt n hn.2 55), or_80_eq _ (getD_lt m hm.2 55), h55]
      simp
    · simp only [c0, c55, if_false]
      exact hmid i (by omega) (by omega)

theorem powMod_eq (b m : Nat) : ∀ (k e : Nat), e < 2 ^ k → powMod b m k e = b ^ e % m := by
  intro k
  induction k with
  | zero =>
    intro e he
    have : e = 0 := by simpa using he
    subst this
    simp [powMod]
  | succ k ih =>
    intro e he
    have h2 : e / 2 < 2 ^ k := by rw [pow_succ] at he; omega
    have hsq : b ^ (e / 2) % m * (b ^ (e / 2) % m) % m = b ^ (2 * (e / 2)) % m := by
      rw [← Nat.mul_mod, two_mul, pow_add]
    simp only [powMod, ih _ h2]
    split
    · rename_i h1
      rw [hsq, Nat.mod_mul_mod]
      conv_rhs => rw [← Nat.div_add_mod e 2, h1, pow_add, pow_one]
    · rename_i h1
      have h0 : e % 2 = 0 := by omega
      rw [hsq]
      conv_rhs => rw [← Nat.div_add_mod e 2, h0, Nat.add_zero]

theorem vec_eval : dropbear_curve448_scalarmult vecScalar vecPoint = vecOut := by
  unfold dropbear_curve448_scalarmult
  rw [curve448_spec _ _ (by decide)]
  decide!

theorem x448_vec : enc (x448 vecScalar vecPoint) = vecOut := by decide!

theorem x448_exponent (z : Nat) :
    powMod z fieldPrime 448 (fieldPrime - 2) = z ^ (fieldPrime - 2) % fieldPrime :=
  powMod_eq z fieldPrime 448 (fieldPrime - 2) (by decide)

/-! ## The claims -/

/-- C1, violated by the code: for the all-zero scalar and the canonical point
`u = 2^224 + 2` the output of `dropbear_curve448_scalarmult` is not the encoding of
`X448(n, u)` of RFC 7748 (the first `fe448_sub(x2, x2, z2)` of the ladder computes
`u - 1 = 2^224 + 1` and loses the carry of its second pass). -/
theorem scalarmult_differs_from_x448 :
    IsBuf bufZero ∧ IsBuf bufFoldUnitSucc ∧ val bufFoldUnitSucc = 2 ^ 224 + 2
      ∧ val (dropbear_curve448_scalarmult bufZero bufFoldUnitSucc)
        = 439035355658147379170313525479704176953915228463639823859390395907499436235279878591623931985284474696143888559123553914801639743796599
      ∧ x448 bufZero bufFoldUnitSucc
        = 105183232840778363098990391640291952035002290427324656369110235933684524908329885053849871102250749764305300125550466020363809784437257
      ∧ dropbear_curve448_scalarmult bufZero bufFoldUnitSucc
        ≠ enc (x448 bufZero bufFoldUnitSucc) := by
  refine ⟨by decide, by decide, by decide, ?_⟩
  unfold dropbear_curve448_scalarmult
  rw [curve448_spec _ _ (by decide)]
  decide!

/-- C2 as printed is false: the scalar and the point have the hexadecimal encodings
of the claim, and the hexadecimal encoding of the output is not the 111-digit
string of the claim. -/
theorem vector_output_not_as_printed :
    String.mk (hexEncode vecScalar)
        = "3d262fddf9ec8e88495266fea19a34d28882acef045104d0d1aae121700a779c984c24f8cdd78fbff44943eba368f54b29259a4f1c600ad3"
      ∧ String.mk (hexEncode vecPoint)
        = "06fce640fa3487bfda5f6cf2d5263f8aad88334cbd07437f020f08f9814dc031ddbdc38c19c6da2583fa5429db94ada18aa7a7fb4ef8a086"
      ∧ String.mk (hexEncode (dropbear_curve448_scalarmult vecScalar vecPoint))
        ≠ "ce3e4ff95a60dc6697da1db1d85e6afbdf79b50a2412d7546d5f239fe14fbaadeb445fc66a01b0779d98223961111e21766282f73dd96b6" := by
  rw [vec_eval]
  decide!

/-- C2, amended: on the scalar and point of the RFC 7748 X448 test vector the output
of `dropbear_curve448_scalarmult` has the 112-digit hexadecimal encoding
`ce3e...dd96b6f` of RFC 7748 (the printed string followed by `f`). -/
theorem vector_output_rfc7748 :
    String.mk (hexEncode vecScalar)
        = "3d262fddf9ec8e88495266fea19a34d28882acef045104d0d1aae121700a779c984c24f8cdd78fbff44943eba368f54b29259a4f1c600ad3"
      ∧ String.mk (hexEncode vecPoint)
        = "06fce640fa3487bfda5f6cf2d5263f8aad88334cbd07437f020f08f9814dc031ddbdc38c19c6da2583fa5429db94ada18aa7a7fb4ef8a086"
      ∧ String.mk (hexEncode (dropbear_curve448_scalarmult vecScalar vecPoint))
        = "ce3e4ff95a60dc6697da1db1d85e6afbdf79b50a2412d7546d5f239fe14fbaadeb445fc66a01b0779d98223961111e21766282f73dd96b6f" := by
  rw [vec_eval]
  decide!

/-- C4: for every 56-byte scalar and every 56-byte point, canonical or not, the output
of `dropbear_curve448_scalarmult` is a 56-byte buffer whose little-endian value lies
in `[0, 2^448 - 2^224 - 2]`. -/
theorem scalarmult_normalized (n p : List Nat) (_hn : IsBuf n) (_hp : IsBuf p) :
    IsBuf (dropbear_curve448_scalarmult n p)
      ∧ val (dropbear_curve448_scalarmult n p) ≤ 2 ^ 448 - 2 ^ 224 - 2 := by
  have h : ∀ x y, val (fe448_norm (fe448_mul x y)) ≤ 2 ^ 448 - 2 ^ 224 - 2 := by
    intro x y
    have := val_norm_lt _ (fe448_mul_isBuf x y)
    unfold fieldPrime at this
    omega
  exact ⟨fe448_norm_isBuf _, h _ _⟩

/-- C4, witness: the scalar and point of the RFC 7748 test vector. -/
theorem scalarmult_normalized_witness :
    IsBuf vecScalar ∧ IsBuf vecPoint
      ∧ IsBuf (dropbear_curve448_scalarmult vecScalar vecPoint)
      ∧ val (dropbear_curve448_scalarmult vecScalar vecPoint) ≤ 2 ^ 448 - 2 ^ 224 - 2 :=
  ⟨by decide, by decide, scalarmult_normalized vecScalar vecPoint (by decide) (by decide)⟩

/-- C5: the scalar is used only through its clamped copy.  Two 56-byte scalars that
agree outside bits 0 and 1 of byte 0 (equal quotients by 4) and outside bit 7 of
byte 55 (equal remainders modulo 128) give the same output for every point, and
that output is `curve448` run on the scalar with byte 0 ANDed with `0xfc` and
byte 55 ORed with `0x80`, all other bytes unchanged. -/
theorem scalarmult_clamp_only (u n m : List Nat) (hn : IsBuf n) (hm : IsBuf m)
    (h0 : n.getD 0 0 / 4 = m.getD 0 0 / 4)
    (hmid : ∀ i, i < 55 → 0 < i → n.getD i 0 = m.getD i 0)
    (h55 : n.getD 55 0 % 128 = m.getD 55 0 % 128) :
    dropbear_curve448_scalarmult n u = dropbear_curve448_scalarmult m u
      ∧ dropbear_curve448_scalarmult n u = curve448 (clampSpec n) u := by
  unfold dropbear_curve448_scalarmult
  rw [clamp_eq_clampSpec, clamp_eq_clampSpec, clampSpec_congr n m hn hm h0 hmid h55]
  exact ⟨rfl, rfl⟩

/-- C5, witness: the test-vector scalar and the same scalar with bits 0 and 1 of
byte 0 and bit 7 of byte 55 flipped. -/
theorem scalarmult_clamp_only_witness :
    IsBuf vecScalar ∧ IsBuf vecScalarFlipped
      ∧ vecScalar.getD 0 0 = 0x3d ∧ vecScalarFlipped.getD 0 0 = 0x3e
      ∧ vecScalar.getD 55 0 = 0xd3 ∧ vecScalarFlipped.getD 55 0 = 0x53
      ∧ (∀ i, i < 55 → 0 < i → vecScalar.getD i 0 = vecScalarFlipped.getD i 0)
      ∧ dropbear_curve448_scalarmult vecScalar vecPoint
        = dropbear_curve448_scalarmult vecScalarFlipped vecPoint
      ∧ dropbear_curve448_scalarmult vecScalar vecPoint
        = curve448 (clampSpec vecScalar) vecPoint :=
  ⟨by decide, by decide, by decide, by decide, by decide, by decide, by decide,
    scalarmult_clamp_only vecPoint vecScalar vecScalarFlipped (by decide) (by decide)
      (by decide) (by decide) (by decide)⟩

/-- C6: for every 56-byte buffer `a` of value `A`, `fe448_norm` leaves the 56-byte
little-endian encoding of `A mod p`; its value lies in `[0, 2^448 - 2^224 - 2]` and
is congruent to `A` modulo `p = 2^448 - 2^224 - 1`. -/
theorem fe448_norm_mod_prime (a : List Nat) (h : IsBuf a) :
    fe448_norm a = enc (val a % (2 ^ 448 - 2 ^ 224 - 1))
      ∧ val (fe448_norm a) = val a % (2 ^ 448 - 2 ^ 224 - 1)
      ∧ val (fe448_norm a) ≤ 2 ^ 448 - 2 ^ 224 - 2
      ∧ val (fe448_norm a) % (2 ^ 448 - 2 ^ 224 - 1) = val a % (2 ^ 448 - 2 ^ 224 - 1) := by
  have h1 := fe448_norm_spec a h
  have h2 := val_norm_eq a h
  have h3 := val_norm_lt a h
  unfold fieldPrime at h1 h2 h3
  refine ⟨h1, h2, by omega, ?_⟩
  rw [h2, Nat.mod_mod]

/-- C6, witness: the all-`0xff` buffer, of value `2^448 - 1`. -/
theorem fe448_norm_mod_prime_witness :
    IsBuf bufOnes
      ∧ fe448_norm bufOnes = enc (val bufOnes % (2 ^ 448 - 2 ^ 224 - 1))
      ∧ val (fe448_norm bufOnes) = val bufOnes % (2 ^ 448 - 2 ^ 224 - 1)
      ∧ val (fe448_norm bufOnes) ≤ 2 ^ 448 - 2 ^ 224 - 2
      ∧ val (fe448_norm bufOnes) % (2 ^ 448 - 2 ^ 224 - 1)
        = val bufOnes % (2 ^ 448 - 2 ^ 224 - 1) :=
  ⟨by decide, fe448_norm_mod_prime bufOnes (by decide)⟩

/-- C7, violated by the code: `a = 2^336 - 1` and `b = 2^336 + 1` are normalized,
`a * b mod p = 2^225`, and `fe448_norm` of `fe448_mul(r, a, b)` is the encoding of
`2^224 - 1` (the last pass of `fe448_mul` drops the carry out of byte 55). -/
theorem fe448_mul_drops_carry :
    IsBuf bufMulA ∧ IsBuf bufMulB
      ∧ val bufMulA = 2 ^ 336 - 1 ∧ val bufMulB = 2 ^ 336 + 1
      ∧ val bufMulA < fieldPrime ∧ val bufMulB < fieldPrime
      ∧ val bufMulA * val bufMulB % fieldPrime = 2 ^ 225
      ∧ fe448_norm (fe448_mul bufMulA bufMulB) = enc (2 ^ 224 - 1)
      ∧ fe448_norm (fe448_mul bufMulA bufMulB)
        ≠ enc (val bufMulA * val bufMulB % fieldPrime) := by
  rw [fe448_mul_spec _ _ (by decide) (by decide), fe448_norm_enc]
  decide!

/-- C8, violated by the code: `a = 2^224 + 2` and `b = 1` are normalized,
`(a - b) mod p = 2^224 + 1`, and `fe448_norm` of `fe448_sub(r, a, b)` is the
all-zero buffer (the second pass of `fe448_sub` drops the carry out of byte 55).
These are the operands of the first `fe448_sub` of the ladder for `u = 2^224 + 2`. -/
theorem fe448_sub_drops_carry :
    IsBuf bufFoldUnitSucc ∧ IsBuf bufOne
      ∧ val bufFoldUnitSucc = 2 ^ 224 + 2 ∧ val bufOne = 1
      ∧ val bufFoldUnitSucc < fieldPrime ∧ val bufOne < fieldPrime
      ∧ ((val bufFoldUnitSucc : Int) - (val bufOne : Int)) % (fieldPrime : Int) = 2 ^ 224 + 1
      ∧ fe448_norm (fe448_sub bufFoldUnitSucc bufOne) = bufZero
      ∧ fe448_norm (fe448_sub bufFoldUnitSucc bufOne)
        ≠ enc (((val bufFoldUnitSucc : Int) - (val bufOne : Int)) % (fieldPrime : Int)).toNat := by
  decide!

/-- C9, violated by the code: for `a = b = 2^448 - 1` (all bytes `0xff`),
`(a + b) mod p = 2^225`, and `fe448_norm` of `fe448_add(r, a, b)` is the encoding of
`2^224 - 1` (the second pass of `fe448_add` drops the carry out of byte 55). -/
theorem fe448_add_drops_carry :
    IsBuf bufOnes ∧ val bufOnes = 2 ^ 448 - 1
      ∧ (val bufOnes + val bufOnes) % fieldPrime = 2 ^ 225
      ∧ fe448_norm (fe448_add bufOnes bufOnes) = enc (2 ^ 224 - 1)
      ∧ fe448_norm (fe448_add bufOnes bufOnes)
        ≠ enc ((val bufOnes + val bufOnes) % fieldPrime) := by
  decide!

/-- C10, violated by the code: the least `A` with `39081 * A ≥ 2^449 - 2^224 - 1` is
normalized, `39081 * A mod p = 2^224 + 21604`, and `fe448_norm` of
`fe448_mul39081(r, a)` is the encoding of `21603` (the second pass of
`fe448_mul39081` drops the carry out of byte 55). -/
theorem fe448_mul39081_drops_carry :
    IsBuf bufMul39081
      ∧ val bufMul39081 = (2 ^ 449 - 2 ^ 224 - 1 + 39080) / 39081
      ∧ val bufMul39081 < fieldPrime
      ∧ 39081 * val bufMul39081 % fieldPrime = 2 ^ 224 + 21604
      ∧ fe448_norm (fe448_mul39081 bufMul39081) = enc 21603
      ∧ fe448_norm (fe448_mul39081 bufMul39081)
        ≠ enc (39081 * val bufMul39081 % fieldPrime) := by
  decide!

/-! ## Lemmas for the inversion, the carry out and the running accumulators -/

theorem fe448_invert_isBuf (a : List Nat) : IsBuf (fe448_invert a) :=
  fe448_mul_isBuf _ _

theorem fe448_add_isBuf (a b : List Nat) : IsBuf (fe448_add a b) :=
  foldCarry_isBuf _ _ _

theorem bufFoldUnit_enc : bufFoldUnit = enc (2 ^ 224 + 1) := by decide!

theorem bufHalf_enc : bufHalf = enc ((fieldPrime + 1) / 2) := by decide!

theorem bufZero_enc : bufZero = enc 0 := by decide!

theorem bufOne_enc : bufOne = enc 1 := by decide!

theorem foldCarryOut_spec (w : Int → Int) (L : Nat)
    (hw : ∀ m : Nat, m < L → w (m : Int) = (m : Int))
    (r : List Nat) (c B : Nat) (hr : r.length ≤ 56) (hb : ∀ x ∈ r, x < 256)
    (hL : B + c + 255 < L) (hB : (B + c + 255) / 256 ≤ B) :
    foldCarryOut w r (c : Int) = (((val r + c * (1 + 256 ^ 28)) / 256 ^ 56 : Nat) : Int) := by
  unfold foldCarryOut
  have h := carryLoop_spec
    (fun i o => w ((if i = 0 ∨ i = 28 then w (o + (c : Int)) else o) + rd r i))
    (fun i => c * (if i = 0 ∨ i = 28 then 1 else 0) + r.getD i 0) B 0 (Nat.zero_le B) 56
    (by
      intro i o _ ho
      have hr' := getD_lt r hb i
      have hdiv : ∀ t : Nat, t ≤ B + c + 255 → t / 256 ≤ B :=
        fun t ht => le_trans (Nat.div_le_div_right ht) hB
      simp only [rd]
      split
      · have e1 : w ((o : Int) + (c : Int)) = ((o + c : Nat) : Int) := by
          rw [← Nat.cast_add]; exact hw _ (by omega)
        have e2 : w (((o + c : Nat) : Int) + ((r.getD i 0 : Nat) : Int))
            = ((o + c + r.getD i 0 : Nat) : Int) := by
          rw [← Nat.cast_add]; exact hw _ (by omega)
        rw [e1, e2]
        exact ⟨by congr 1; ring, hdiv _ (by omega)⟩
      · have e2 : w ((o : Int) + ((r.getD i 0 : Nat) : Int)) = ((o + r.getD i 0 : Nat) : Int) := by
          rw [← Nat.cast_add]; exact hw _ (by omega)
        rw [e2]
        exact ⟨by congr 1; ring, hdiv _ (by omega)⟩)
  have h0 := h.1
  rw [show ((0 : Nat) : Int) = 0 from rfl] at h0
  rw [h0, wsum_add, wsum_mul_left, wsum_fold_mask, wsum_val r 56 hr]
  simp only [Nat.zero_add]
  rw [Nat.add_comm]

theorem foldV_exact (s : Nat) (h : s < 2 ^ 448 + fieldPrime) :
    foldV s < 256 ^ 56 ∧ foldV s % fieldPrime = s % fieldPrime := by
  unfold foldV
  unfold fieldPrime at *
  by_cases hs : s < 256 ^ 56
  · rw [Nat.div_eq_of_lt hs, Nat.mod_eq_of_lt hs, Nat.zero_mul, Nat.add_zero]
    exact ⟨hs, rfl⟩
  · have h1 : s / 256 ^ 56 = 1 := by
      apply Nat.div_eq_of_lt_le <;> omega
    have h2 : s % 256 ^ 56 = s - 256 ^ 56 := by
      rw [Nat.mod_eq_sub_mod (by omega), Nat.mod_eq_of_lt (by omega)]
    rw [h1, h2, Nat.one_mul]
    refine ⟨by omega, ?_⟩
    have h3 : s - 256 ^ 56 + (1 + 256 ^ 28) = s - (2 ^ 448 - 2 ^ 224 - 1) := by omega
    rw [h3]
    exact (Nat.mod_eq_sub_mod (by omega)).symm

theorem fe448_add_carryOut_spec (a b : List Nat) (ha : IsBuf a) (hb : IsBuf b) :
    fe448_add_carryOut a b = ((foldV (val a + val b) / 256 ^ 56 : Nat) : Int) := by
  unfold fe448_add_carryOut
  obtain ⟨h0, hc⟩ := carryLoop_spec (fun i c => i16 (i16 (c + rd a i) + rd b i))
    (fun i => a.getD i 0 + b.getD i 0) 1 0 (Nat.zero_le 1) 56
    (by
      intro i c _ hc
      have ha' := getD_lt a ha.2 i
      have hb' := getD_lt b hb.2 i
      simp only [rd, i16]
      constructor <;> omega)
  rw [show ((0 : Nat) : Int) = 0 from rfl, Nat.zero_add, wsum_add,
    wsum_val a 56 (le_of_eq ha.1), wsum_val b 56 (le_of_eq hb.1)] at h0
  rw [Nat.zero_add, wsum_add, wsum_val a 56 (le_of_eq ha.1), wsum_val b 56 (le_of_eq hb.1)] at hc
  simp only [h0]
  rw [foldCarryOut_spec i16 32768 i16_cast _ _ 1 (by rw [encN_length]) (encN_bytes 56 _)
    (by omega) (le_trans (Nat.div_le_div_right (by omega : 1 + _ + 255 ≤ 257)) (by decide)),
    val_encN]
  rfl

theorem subAcc_step (a b : List Nat) (ha : IsBuf a) (hb : IsBuf b) (i c : Nat) (hc : c ≤ 2) :
    subAcc a b i (c : Int) = ((c + (subOffset i + a.getD i 0 - b.getD i 0) : Nat) : Int)
      ∧ (c + (subOffset i + a.getD i 0 - b.getD i 0)) / 256 ≤ 2 := by
  have ha' := getD_lt a ha.2 i
  have hb' := getD_lt b hb.2 i
  simp only [subAcc, subAcc2, subAcc1, rd, subOffset, i16]
  split <;> constructor <;> omega

theorem subCarry_spec (a b : List Nat) (ha : IsBuf a) (hb : IsBuf b) (n : Nat) :
    carryLoop (subAcc a b) n 0
        = (encN n (wsum (fun i => subOffset i + a.getD i 0 - b.getD i 0) n),
            ((wsum (fun i => subOffset i + a.getD i 0 - b.getD i 0) n / 256 ^ n : Nat) : Int))
      ∧ wsum (fun i => subOffset i + a.getD i 0 - b.getD i 0) n / 256 ^ n ≤ 2 := by
  have h := carryLoop_spec (subAcc a b) (fun i => subOffset i + a.getD i 0 - b.getD i 0) 2 0
    (Nat.zero_le 2) n (fun i c _ hc => subAcc_step a b ha hb i c hc)
  rw [show ((0 : Nat) : Int) = 0 from rfl, Nat.zero_add] at h
  exact h

theorem sub_total (a b : List Nat) (ha : IsBuf a) (hb : IsBuf b) :
    wsum (fun i => subOffset i + a.getD i 0 - b.getD i 0) 56 + val b
      = val a + 2 * fieldPrime := by
  rw [← wsum_val b 56 (le_of_eq hb.1), ← wsum_add, ← wsum_val a 56 (le_of_eq ha.1),
    ← wsum_subOffset, ← wsum_add]
  apply wsum_congr
  intro i _
  have hb' := getD_lt b hb.2 i
  simp only [subOffset]
  split <;> omega

theorem pow_mod_sq (a e m : Nat) : a ^ e % m * (a ^ e % m) % m = a ^ (2 * e) % m := by
  rw [← Nat.mul_mod, two_mul, pow_add]

theorem pow_mod_mul (a e m : Nat) : a ^ e % m * a % m = a ^ (e + 1) % m := by
  rw [Nat.mod_mul_mod, pow_succ]

theorem exact_iterate (a : Nat) :
    ∀ (k e : Nat), (fun t => mulExact (sqrExact t) a)^[k] (a ^ e % fieldPrime)
      = a ^ ((fun e => 2 * e + 1)^[k] e) % fieldPrime := by
  intro k
  induction k with
  | zero => intro e; rfl
  | succ k ih =>
    intro e
    rw [Function.iterate_succ_apply, Function.iterate_succ_apply, ← ih]
    congr 1
    simp only [mulExact, sqrExact]
    rw [pow_mod_sq, pow_mod_mul]

theorem exact_chain (a : Nat) :
    invertChain sqrExact mulExact a
      = a ^ (2 * (2 * ((fun e => 2 * e + 1)^[222] (2 * ((fun e => 2 * e + 1)^[221] (2 * 1 + 1)))))
          + 1) % fieldPrime := by
  have hsq : ∀ e, sqrExact (a ^ e % fieldPrime) = a ^ (2 * e) % fieldPrime :=
    fun e => pow_mod_sq a e fieldPrime
  have hml : ∀ e, mulExact (a ^ e % fieldPrime) a = a ^ (e + 1) % fieldPrime :=
    fun e => pow_mod_mul a e fieldPrime
  have h0 : sqrExact a = a ^ (2 * 1) % fieldPrime := by
    simp only [sqrExact]; rw [Nat.mul_one, pow_two]
  simp only [invertChain, h0, hml, hsq, exact_iterate]

theorem chain_exponent :
    2 * (2 * ((fun e => 2 * e + 1)^[222] (2 * ((fun e => 2 * e + 1)^[221] (2 * 1 + 1))))) + 1
      = 2 ^ 448 - 2 ^ 224 - 3 := by decide!

/-! ## The claims on inversion, swap, idempotence, squaring, exactness and offsets -/

/-- C11, violated by the code: `a = 2^224 + 1` is normalized and not zero, and
`fe448_norm(fe448_mul(fe448_invert(a), a))` is not the canonical encoding of 1
(a multiplication inside `fe448_invert` drops the carry out of byte 55). -/
theorem fe448_invert_not_inverse :
    IsBuf bufFoldUnit ∧ val bufFoldUnit = 2 ^ 224 + 1
      ∧ val bufFoldUnit < fieldPrime ∧ val bufFoldUnit % fieldPrime ≠ 0
      ∧ val (fe448_norm (fe448_mul (fe448_invert bufFoldUnit) bufFoldUnit))
        = 124959352802243215448281614928335988172308164398475553449915233505119026
      ∧ fe448_norm (fe448_mul (fe448_invert bufFoldUnit) bufFoldUnit) ≠ bufOne := by
  rw [bufFoldUnit_enc, fe448_invert_enc, fe448_mul_enc, fe448_norm_enc]
  decide!

/-- C12: `fe448_invert` returns a 56-byte buffer for every input, and applied to the
all-zero buffer it returns the all-zero buffer. -/
theorem fe448_invert_zero :
    (∀ a : List Nat, IsBuf (fe448_invert a)) ∧ fe448_invert bufZero = bufZero := by
  refine ⟨fe448_invert_isBuf, ?_⟩
  rw [bufZero_enc, fe448_invert_enc]
  decide!

/-- C13 as stated is false: `a = (p + 1) / 2` is normalized and `fe448_invert(r, a)`
has value `p + 2`, outside `[0, 2^448 - 2^224 - 2]`. -/
theorem fe448_invert_not_normalized :
    IsBuf bufHalf ∧ val bufHalf = (fieldPrime + 1) / 2 ∧ val bufHalf < fieldPrime
      ∧ val (fe448_invert bufHalf) = fieldPrime + 2
      ∧ ¬ val (fe448_invert bufHalf) ≤ 2 ^ 448 - 2 ^ 224 - 2 := by
  rw [bufHalf_enc, fe448_invert_enc]
  decide!

/-- C13, amended: for every 56-byte field element `a` the result of
`fe448_invert(r, a)` is a 56-byte buffer, of value in `[0, 2^448 - 1]`. -/
theorem fe448_invert_range (a : List Nat) (_h : IsBuf a) :
    IsBuf (fe448_invert a) ∧ val (fe448_invert a) ≤ 2 ^ 448 - 1 := by
  have h1 := fe448_invert_isBuf a
  have h2 := val_lt _ h1
  exact ⟨h1, by omega⟩

/-- C13, witness: the all-`0xff` buffer. -/
theorem fe448_invert_range_witness :
    IsBuf bufOnes ∧ IsBuf (fe448_invert bufOnes) ∧ val (fe448_invert bufOnes) ≤ 2 ^ 448 - 1 :=
  ⟨by decide, fe448_invert_range bufOnes (by decide)⟩

/-- C14: for every pair of 56-byte buffers `a`, `b`, `fe448_cswap(a, b, 0)` leaves
both unchanged and `fe448_cswap(a, b, 1)` exchanges their contents. -/
theorem fe448_cswap_correct (a b : List Nat) (ha : IsBuf a) (hb : IsBuf b) :
    fe448_cswap a b 0 = (a, b) ∧ fe448_cswap a b 1 = (b, a) :=
  ⟨fe448_cswap_zero a b ha.1 hb.1, fe448_cswap_one a b ha hb⟩

/-- C14, witness: the scalar and the point of the test vector. -/
theorem fe448_cswap_correct_witness :
    IsBuf vecScalar ∧ IsBuf vecPoint
      ∧ fe448_cswap vecScalar vecPoint 0 = (vecScalar, vecPoint)
      ∧ fe448_cswap vecScalar vecPoint 1 = (vecPoint, vecScalar) :=
  ⟨by decide, by decide, fe448_cswap_correct vecScalar vecPoint (by decide) (by decide)⟩

/-- C15: `fe448_norm` is idempotent on 56-byte buffers. -/
theorem fe448_norm_idempotent (a : List Nat) (h : IsBuf a) :
    fe448_norm (fe448_norm a) = fe448_norm a := by
  rw [fe448_norm_spec _ (fe448_norm_isBuf a), val_norm_eq a h, Nat.mod_mod,
    fe448_norm_spec a h]

/-- C15, witness: the all-`0xff` buffer, which is not normalized. -/
theorem fe448_norm_idempotent_witness :
    IsBuf bufOnes ∧ fe448_norm (fe448_norm bufOnes) = fe448_norm bufOnes :=
  ⟨by decide, fe448_norm_idempotent bufOnes (by decide)⟩

/-- C17: for every 56-byte buffer `a` the half convolution of `fe448_sqr` builds the
same 112-byte accumulator as the full convolution of `fe448_mul(r, a, a)`,
`fe448_sqr(r, a)` gives the same bytes as `fe448_mul(r, a, a)` followed by
`fe448_norm(r)`, and its value lies in `[0, p - 1]`. -/
theorem fe448_sqr_eq_norm_mul (a : List Nat) (h : IsBuf a) :
    sqrWide a = mulWide a a
      ∧ fe448_sqr a = fe448_norm (fe448_mul a a)
      ∧ val (fe448_sqr a) ≤ 2 ^ 448 - 2 ^ 224 - 1 - 1 := by
  have h1 : sqrWide a = mulWide a a := by rw [sqrWide_spec a h, mulWide_spec a a h h]
  have h2 : fe448_sqr a = fe448_norm (fe448_mul a a) := by
    unfold fe448_sqr fe448_mul
    rw [h1]
  refine ⟨h1, h2, ?_⟩
  have h3 := val_norm_lt _ (fe448_mul_isBuf a a)
  rw [h2]
  unfold fieldPrime at h3
  omega

/-- C17, witness: the input point of the test vector. -/
theorem fe448_sqr_eq_norm_mul_witness :
    IsBuf vecPoint
      ∧ sqrWide vecPoint = mulWide vecPoint vecPoint
      ∧ fe448_sqr vecPoint = fe448_norm (fe448_mul vecPoint vecPoint)
      ∧ val (fe448_sqr vecPoint) ≤ 2 ^ 448 - 2 ^ 224 - 1 - 1 :=
  ⟨by decide, fe448_sqr_eq_norm_mul vecPoint (by decide)⟩

/-- C18: for 56-byte buffers `a`, `b` of values `A`, `B` with `A + B < 2^448 + p` (in
particular whenever `A < p` or `B < p`), the second pass of `fe448_add` loses no
carry (its accumulator ends at 0), the result `R` is below `2^448` and congruent
to `A + B` modulo `p`, and `fe448_norm` of it is the encoding of `(A + B) mod p`. -/
theorem fe448_add_exact (a b : List Nat) (ha : IsBuf a) (hb : IsBuf b)
    (h : val a + val b < 2 ^ 448 + (2 ^ 448 - 2 ^ 224 - 1)) :
    fe448_add_carryOut a b = 0
      ∧ val (fe448_add a b) < 2 ^ 448
      ∧ val (fe448_add a b) % (2 ^ 448 - 2 ^ 224 - 1)
        = (val a + val b) % (2 ^ 448 - 2 ^ 224 - 1)
      ∧ fe448_norm (fe448_add a b) = enc ((val a + val b) % (2 ^ 448 - 2 ^ 224 - 1)) := by
  obtain ⟨h1, h2⟩ := foldV_exact (val a + val b) h
  have hv : val (fe448_add a b) = foldV (val a + val b) := by
    rw [fe448_add_spec a b ha hb, val_enc, Nat.mod_eq_of_lt h1]
  have hm : val (fe448_add a b) % fieldPrime = (val a + val b) % fieldPrime := by
    rw [hv, h2]
  refine ⟨?_, ?_, hm, ?_⟩
  · rw [fe448_add_carryOut_spec a b ha hb, Nat.div_eq_of_lt h1]
    rfl
  · rw [hv]
    exact lt_of_lt_of_eq h1 (by norm_num)
  · rw [fe448_norm_spec _ (fe448_add_isBuf a b)]
    exact congrArg enc hm

/-- C18, witness: two normalized buffers, `2^336 - 1` and `2^336 + 1`. -/
theorem fe448_add_exact_witness :
    IsBuf bufMulA ∧ IsBuf bufMulB
      ∧ val bufMulA < 2 ^ 448 - 2 ^ 224 - 1 ∧ val bufMulB < 2 ^ 448 - 2 ^ 224 - 1
      ∧ fe448_add_carryOut bufMulA bufMulB = 0
      ∧ val (fe448_add bufMulA bufMulB) < 2 ^ 448
      ∧ val (fe448_add bufMulA bufMulB) % (2 ^ 448 - 2 ^ 224 - 1)
        = (val bufMulA + val bufMulB) % (2 ^ 448 - 2 ^ 224 - 1)
      ∧ fe448_norm (fe448_add bufMulA bufMulB)
        = enc ((val bufMulA + val bufMulB) % (2 ^ 448 - 2 ^ 224 - 1)) :=
  ⟨by decide, by decide, by decide, by decide,
    fe448_add_exact bufMulA bufMulB (by decide) (by decide) (by decide)⟩

/-- C19: `fe448_invert` is the fixed chain `invertChain` over `fe448_sqr` and
`fe448_mul`; started from `a^1` the chain reaches the exponent `2^448 - 2^224 - 3`
with 447 squarings and 445 multiplications; and over exact multiplication modulo
`p` it returns `a^(p-2) mod p` for every `a`. -/
theorem fe448_invert_chain :
    (∀ a : List Nat, fe448_invert a = invertChain fe448_sqr fe448_mul a)
      ∧ invertChain ChainCount.sq ChainCount.ml
          { exponent := 1, squarings := 0, multiplications := 0 }
        = { exponent := 2 ^ 448 - 2 ^ 224 - 3, squarings := 447, multiplications := 445 }
      ∧ ∀ a : Nat, invertChain sqrExact mulExact a
          = a ^ (2 ^ 448 - 2 ^ 224 - 1 - 2) % (2 ^ 448 - 2 ^ 224 - 1) := by
  refine ⟨fun a => rfl, by decide!, ?_⟩
  intro a
  rw [exact_chain, chain_exponent]
  rfl

/-- C20: the offsets of `fe448_sub` sum to `2p`; for 56-byte buffers `a`, `b` the
accumulator `c` of the first pass is never negative (at the start of an iteration
and after each of its three updates), and when the pass ends the bytes `r` and the
carry `c` satisfy `value(r) + c * 2^448 = A - B + 2p` with `c` in `{0, 1, 2}`. -/
theorem fe448_sub_first_pass (a b : List Nat) (ha : IsBuf a) (hb : IsBuf b) :
    wsum (fun i => if i = 28 then 0x1fc else 0x1fe) 56 = 2 * (2 ^ 448 - 2 ^ 224 - 1)
      ∧ fe448_sub a b = foldCarry i16 (subBytes a b) (subCarry a b 56)
      ∧ (∀ i, i < 56 →
          0 ≤ subCarry a b i ∧ 0 ≤ subAcc1 i (subCarry a b i)
            ∧ 0 ≤ subAcc2 a i (subCarry a b i) ∧ 0 ≤ subAcc a b i (subCarry a b i))
      ∧ (val (subBytes a b) : Int) + subCarry a b 56 * 2 ^ 448
          = (val a : Int) - (val b : Int) + 2 * (2 ^ 448 - 2 ^ 224 - 1)
      ∧ (subCarry a b 56 = 0 ∨ subCarry a b 56 = 1 ∨ subCarry a b 56 = 2) := by
  refine ⟨wsum_subOffset, rfl, ?_, ?_, ?_⟩
  · intro i _
    obtain ⟨h1, h2⟩ := subCarry_spec a b ha hb i
    have ha' := getD_lt a ha.2 i
    have hb' := getD_lt b hb.2 i
    simp only [subCarry, h1]
    generalize wsum (fun i => subOffset i + a.getD i 0 - b.getD i 0) i / 256 ^ i = c at h2
    simp only [subAcc, subAcc2, subAcc1, rd, i16]
    split <;> refine ⟨?_, ?_, ?_, ?_⟩ <;> omega
  · obtain ⟨h1, _⟩ := subCarry_spec a b ha hb 56
    have ht := sub_total a b ha hb
    simp only [subCarry, subBytes, h1, val_encN]
    generalize wsum (fun i => subOffset i + a.getD i 0 - b.getD i 0) 56 = T at ht
    have hT := Nat.mod_add_div T (256 ^ 56)
    unfold fieldPrime at ht
    have e : (2 : Int) ^ 448 = ((256 ^ 56 : Nat) : Int) := by norm_num
    rw [e]
    have hT' : ((T % 256 ^ 56 : Nat) : Int) + ((T / 256 ^ 56 : Nat) : Int) * ((256 ^ 56 : Nat) : Int)
        = (T : Int) := by
      rw [← Nat.cast_mul, ← Nat.cast_add, Nat.mul_comm]
      exact congrArg _ hT
    rw [hT']
    omega
  · obtain ⟨h1, h2⟩ := subCarry_spec a b ha hb 56
    simp only [subCarry, h1]
    omega

/-- C20, witness: `a = 2^224 + 2`, `b = 1`, the operands of C8. -/
theorem fe448_sub_first_pass_witness :
    IsBuf bufFoldUnitSucc ∧ IsBuf bufOne
      ∧ (val (subBytes bufFoldUnitSucc bufOne) : Int)
          + subCarry bufFoldUnitSucc bufOne 56 * 2 ^ 448
        = (val bufFoldUnitSucc : Int) - (val bufOne : Int) + 2 * (2 ^ 448 - 2 ^ 224 - 1) :=
  ⟨by decide, by decide,
    (fe448_sub_first_pass bufFoldUnitSucc bufOne (by decide) (by decide)).2.2.2.1⟩

/-! ## Lemmas: the instrumented embedding computes the same results -/

@[simp] theorem Tr.pure_res {α : Type} (x : α) : (pure x : Tr α).res = x :=
  Eq.trans rfl rfl

@[simp] theorem Tr.pure_leak {α : Type} (x : α) : (pure x : Tr α).leak = [] :=
  Eq.trans rfl rfl

@[simp] theorem Tr.bind_res {α β : Type} (m : Tr α) (f : α → Tr β) :
    (m >>= f).res = (f m.res).res :=
  Eq.trans rfl rfl

@[simp] theorem Tr.bind_leak {α β : Type} (m : Tr α) (f : α → Tr β) :
    (m >>= f).leak = m.leak ++ (f m.res).leak :=
  Eq.trans rfl rfl

theorem carryLoopT_res (out : Option Arr) (acc : Nat → Int → Tr Int) :
    ∀ (n : Nat) (c : Int),
      (carryLoopT out acc n c).res = carryLoop (fun i c => (acc i c).res) n c := by
  intro n
  induction n with
  | zero => intro c; rfl
  | succ n ih =>
    intro c
    cases out <;> simp only [carryLoopT, carryLoop, Tr.bind_res, Tr.pure_res, ih]

theorem mapLoopT_res (out : Arr) (f : Nat → Tr Nat) :
    ∀ n : Nat, (mapLoopT out f n).res = (List.range n).map (fun i => (f i).res) := by
  intro n
  induction n with
  | zero => rfl
  | succ n ih =>
    simp only [mapLoopT, Tr.bind_res, Tr.pure_res, ih, List.range_succ, List.map_append,
      List.map_cons, List.map_nil]

theorem repeatT_res {α : Type} (f : α → Tr α) :
    ∀ (n : Nat) (x : α), (repeatT f n x).res = (fun t => (f t).res)^[n] x := by
  intro n
  induction n with
  | zero => intro x; rfl
  | succ n ih =>
    intro x
    simp only [repeatT, Tr.bind_res, ih, Function.iterate_succ_apply']

theorem fe448_copyT_res (a : List Nat) : (fe448_copyT a).res = fe448_copy a := by
  simp only [fe448_copyT, fe448_copy, Tr.bind_res, mapLoopT_res, readT]

theorem fe448_cswapT_res (a b : List Nat) (c : Nat) :
    (fe448_cswapT a b c).res = fe448_cswap a b c := by
  simp only [fe448_cswapT, fe448_cswap, Tr.bind_res, Tr.pure_res, mapLoopT_res, readT]

theorem foldCarryT_res (arr : Arr) (w : Int → Int) (r : List Nat) (c : Int) :
    (foldCarryT arr w r c).res = foldCarry w r c := by
  simp only [foldCarryT, foldCarry, Tr.bind_res, Tr.pure_res, carryLoopT_res, readT, branchT,
    rd, decide_eq_true_eq]

theorem fe448_normT_res (a : List Nat) : (fe448_normT a).res = fe448_norm a := by
  simp only [fe448_normT, fe448_norm, Tr.bind_res, Tr.pure_res, carryLoopT_res, readT, branchT,
    rd, decide_eq_true_eq, foldCarryT_res]

theorem fe448_addT_res (a b : List Nat) : (fe448_addT a b).res = fe448_add a b := by
  simp only [fe448_addT, fe448_add, Tr.bind_res, Tr.pure_res, carryLoopT_res, readT, rd,
    foldCarryT_res]

theorem fe448_subT_res (a b : List Nat) : (fe448_subT a b).res = fe448_sub a b := by
  simp only [fe448_subT, fe448_sub, Tr.bind_res, Tr.pure_res, carryLoopT_res, readT, branchT,
    rd, decide_eq_true_eq, foldCarryT_res]

theorem fe448_mul39081T_res (a : List Nat) : (fe448_mul39081T a).res = fe448_mul39081 a := by
  simp only [fe448_mul39081T, fe448_mul39081, Tr.bind_res, Tr.pure_res, carryLoopT_res, readT,
    rd, foldCarryT_res]

theorem mulInnerT_res (a b : List Nat) (k : Nat) :
    ∀ (cnt i : Nat) (c : Int), (mulInnerT a b k cnt i c).res = mulInner a b k cnt i c := by
  intro cnt
  induction cnt with
  | zero => intro i c; rfl
  | succ cnt ih =>
    intro i c
    simp only [mulInnerT, mulInner, Tr.bind_res, ih, readT, rd]

theorem mulColumnT_res (a b : List Nat) (k : Nat) (c : Int) :
    (mulColumnT a b k c).res = mulColumn a b k c := by
  unfold mulColumnT mulColumn
  split <;> exact mulInnerT_res a b k _ _ c

theorem foldAccT_res (t : List Nat) (i : Nat) (o : Int) :
    (foldAccT t i o).res = foldAcc t i o := by
  unfold foldAccT foldAcc
  split <;> rfl

theorem reduceWideT_res (t : List Nat) : (reduceWideT t).res = reduceWide t := by
  simp only [reduceWideT, reduceWide, Tr.bind_res, carryLoopT_res, foldAccT_res, foldCarryT_res]

theorem mulWideT_res (a b : List Nat) : (mulWideT a b).res = mulWide a b := by
  simp only [mulWideT, mulWide, Tr.bind_res, Tr.pure_res, carryLoopT_res, mulColumnT_res]

theorem fe448_mulT_res (a b : List Nat) : (fe448_mulT a b).res = fe448_mul a b := by
  simp only [fe448_mulT, fe448_mul, Tr.bind_res, mulWideT_res, reduceWideT_res]

theorem sqrInnerT_res (a : List Nat) (k : Nat) :
    ∀ (cnt i : Nat) (c : Int), (sqrInnerT a k cnt i c).res = sqrInner a k cnt i c := by
  intro cnt
  induction cnt with
  | zero => intro i c; rfl
  | succ cnt ih =>
    intro i c
    by_cases h : k - i < i
    · simp [sqrInnerT, sqrInner, branchT, h]
    · by_cases h2 : k - i = i
      · simp [sqrInnerT, sqrInner, branchT, readT, rd, h, h2, ih]
      · simp [sqrInnerT, sqrInner, branchT, readT, rd, h, h2, ih]

theorem sqrColumnT_res (a : List Nat) (k : Nat) (c : Int) :
    (sqrColumnT a k c).res = sqrColumn a k c := by
  unfold sqrColumnT sqrColumn
  split <;> exact sqrInnerT_res a k _ _ c

theorem sqrWideT_res (a : List Nat) : (sqrWideT a).res = sqrWide a := by
  simp only [sqrWideT, sqrWide, Tr.bind_res, Tr.pure_res, carryLoopT_res, sqrColumnT_res]

theorem fe448_sqrT_res (a : List Nat) : (fe448_sqrT a).res = fe448_sqr a := by
  simp only [fe448_sqrT, fe448_sqr, Tr.bind_res, sqrWideT_res, reduceWideT_res, fe448_normT_res]

theorem sqrMulT_res (a : List Nat) : (fun t => (sqrMulT a t).res) = sqrMul a := by
  funext t
  simp only [sqrMulT, sqrMul, Tr.bind_res, fe448_sqrT_res, fe448_mulT_res]

theorem fe448_invertT_res (a : List Nat) : (fe448_invertT a).res = fe448_invert a := by
  unfold fe448_invertT fe448_invert
  simp only [Tr.bind_res]
  rw [fe448_mulT_res, fe448_sqrT_res, fe448_sqrT_res, repeatT_res, sqrMulT_res,
    fe448_sqrT_res, repeatT_res, sqrMulT_res, fe448_mulT_res, fe448_sqrT_res]

theorem ladderStepT_res (n x1 : List Nat) (i : Nat) (s : Ladder) :
    (ladderStepT n x1 i s).res = ladderStep n x1 i s := by
  unfold ladderStepT ladderStep
  simp only [Tr.bind_res, Tr.pure_res]
  simp only [fe448_cswapT_res, fe448_addT_res, fe448_subT_res, fe448_mulT_res, fe448_sqrT_res,
    fe448_mul39081T_res, readT]

theorem ladderLoopT_res (n x1 : List Nat) :
    ∀ (k : Nat) (s : Ladder), (ladderLoopT n x1 k s).res = ladderLoop n x1 k s := by
  intro k
  induction k with
  | zero => intro s; rfl
  | succ k ih =>
    intro s
    rw [ladderLoopT, ladderLoop]
    simp only [Tr.bind_res]
    rw [ih, ladderStepT_res]

theorem curve448T_res (n a : List Nat) : (curve448T n a).res = curve448 n a := by
  unfold curve448T curve448
  simp only [Tr.bind_res]
  simp only [fe448_copyT_res, ladderLoopT_res, fe448_cswapT_res, fe448_invertT_res,
    fe448_mulT_res, fe448_normT_res]

theorem modify_getD (f : Nat → Nat) :
    ∀ (l : List Nat) (k : Nat), l.modify (fun _ => f (l.getD k 0)) k = l.modify f k := by
  intro l
  induction l with
  | nil => intro k; simp
  | cons x xs ih =>
    intro k
    cases k with
    | zero => simp
    | succ k =>
      simp only [List.modify_succ_cons, List.getD_cons_succ]
      rw [ih k]

theorem clampT_res (n : List Nat) : (clampT n).res = clamp n := by
  simp only [clampT, clamp, Tr.bind_res, Tr.pure_res, fe448_copyT_res, readT]
  rw [modify_getD (fun x => x &&& 0xfc), modify_getD (fun x => x ||| 0x80)]

theorem scalarmultT_res (n p : List Nat) :
    (dropbear_curve448_scalarmultT n p).res = dropbear_curve448_scalarmult n p := by
  unfold dropbear_curve448_scalarmultT dropbear_curve448_scalarmult
  simp only [Tr.bind_res]
  rw [curve448T_res, clampT_res]

/-! ## Lemmas: the recorded events do not depend on the data -/

theorem leak_append_congr {l1 l1' l2 l2' : List Leak} (h1 : l1 = l1') (h2 : l2 = l2') :
    l1 ++ l2 = l1' ++ l2' := by
  rw [h1, h2]

theorem carryLoopT_leak_congr (out : Option Arr) (acc acc' : Nat → Int → Tr Int)
    (h : ∀ i c c', (acc i c).leak = (acc' i c').leak) :
    ∀ (n : Nat) (c c' : Int), (carryLoopT out acc n c).leak = (carryLoopT out acc' n c').leak := by
  intro n
  induction n with
  | zero => intro c c'; rfl
  | succ n ih =>
    intro c c'
    cases out <;>
      (simp only [carryLoopT, Tr.bind_leak, Tr.pure_leak]
       rw [ih c c', h n _ (carryLoopT _ acc' n c').res.2])

theorem mapLoopT_leak_congr (out : Arr) (f f' : Nat → Tr Nat)
    (h : ∀ i, (f i).leak = (f' i).leak) :
    ∀ n : Nat, (mapLoopT out f n).leak = (mapLoopT out f' n).leak := by
  intro n
  induction n with
  | zero => rfl
  | succ n ih => simp only [mapLoopT, Tr.bind_leak, Tr.pure_leak, ih, h n]

theorem repeatT_leak {α : Type} (f : α → Tr α) (body : List Leak)
    (h : ∀ x, (f x).leak = body) :
    ∀ (n : Nat) (x : α), (repeatT f n x).leak = repeatLeak body n := by
  intro n
  induction n with
  | zero => intro x; rfl
  | succ n ih =>
    intro x
    simp only [repeatT, repeatLeak, Tr.bind_leak, ih, h, iterT, List.singleton_append]

theorem mulInnerT_leak_congr (a b a' b' : List Nat) (k : Nat) :
    ∀ (cnt i : Nat) (c c' : Int),
      (mulInnerT a b k cnt i c).leak = (mulInnerT a' b' k cnt i c').leak := by
  intro cnt
  induction cnt with
  | zero => intro i c c'; rfl
  | succ cnt ih =>
    intro i c c'
    simp only [mulInnerT, Tr.bind_leak, readT]
    rw [ih (i + 1) _ (i32 (c' + ((a'.getD i 0 : Nat) : Int) * ((b'.getD (k - i) 0 : Nat) : Int)))]

theorem mulColumnT_leak_congr (a b a' b' : List Nat) (k : Nat) (c c' : Int) :
    (mulColumnT a b k c).leak = (mulColumnT a' b' k c').leak := by
  unfold mulColumnT
  split <;> exact mulInnerT_leak_congr a b a' b' k _ _ c c'

theorem sqrInnerT_leak_congr (a a' : List Nat) (k : Nat) :
    ∀ (cnt i : Nat) (c c' : Int),
      (sqrInnerT a k cnt i c).leak = (sqrInnerT a' k cnt i c').leak := by
  intro cnt
  induction cnt with
  | zero => intro i c c'; rfl
  | succ cnt ih =>
    intro i c c'
    by_cases h : k - i < i
    · simp [sqrInnerT, branchT, h]
    · simp only [sqrInnerT, Tr.bind_leak, branchT, readT, h, decide_False, Bool.false_eq_true,
        if_false]
      rw [ih (i + 1) _ (i32 (c' + (if decide (k - i ≠ i) = true
        then i32 (i32 (((a'.getD i 0 : Nat) : Int) * ((a'.getD (k - i) 0 : Nat) : Int)) * 2)
        else i32 (((a'.getD i 0 : Nat) : Int) * ((a'.getD (k - i) 0 : Nat) : Int)))))]

theorem sqrColumnT_leak_congr (a a' : List Nat) (k : Nat) (c c' : Int) :
    (sqrColumnT a k c).leak = (sqrColumnT a' k c').leak := by
  unfold sqrColumnT
  split <;> exact sqrInnerT_leak_congr a a' k _ _ c c'

theorem foldAccT_leak_congr (t t' : List Nat) (i : Nat) (o o' : Int) :
    (foldAccT t i o).leak = (foldAccT t' i o').leak := by
  unfold foldAccT
  split <;> rfl

theorem foldCarryT_leak (arr : Arr) (w : Int → Int) (r : List Nat) (c : Int) :
    (foldCarryT arr w r c).leak = foldLeak arr := by
  unfold foldLeak foldCarryT
  simp only [Tr.bind_leak, Tr.pure_leak]
  refine leak_append_congr (carryLoopT_leak_congr _ _ _ ?_ 56 0 0) rfl
  intro i c c'
  simp only [Tr.bind_leak, Tr.pure_leak, readT, branchT]

theorem fe448_normT_leak (a : List Nat) : (fe448_normT a).leak = normLeak := by
  unfold normLeak fe448_normT
  simp only [Tr.bind_leak, foldCarryT_leak]
  refine leak_append_congr rfl (leak_append_congr (carryLoopT_leak_congr _ _ _ ?_ 56 0 0) rfl)
  intro i c c'
  simp only [Tr.bind_leak, Tr.pure_leak, readT, branchT]

theorem fe448_copyT_leak (a : List Nat) : (fe448_copyT a).leak = copyLeak := by
  unfold copyLeak fe448_copyT
  simp only [Tr.bind_leak]
  refine leak_append_congr rfl (mapLoopT_leak_congr _ _ _ ?_ 56)
  intro i
  simp only [Tr.bind_leak, Tr.pure_leak, readT]

theorem fe448_cswapT_leak (a b : List Nat) (c : Nat) :
    (fe448_cswapT a b c).leak = cswapLeak := by
  unfold cswapLeak fe448_cswapT
  simp only [Tr.bind_leak, Tr.pure_leak]
  refine leak_append_congr rfl
    (leak_append_congr (mapLoopT_leak_congr _ _ _ ?_ 56)
      (leak_append_congr (mapLoopT_leak_congr _ _ _ ?_ 56)
        (leak_append_congr (mapLoopT_leak_congr _ _ _ ?_ 56) rfl))) <;>
  · intro i
    simp only [Tr.bind_leak, Tr.pure_leak, readT]

theorem fe448_addT_leak (a b : List Nat) : (fe448_addT a b).leak = addLeak := by
  unfold addLeak fe448_addT
  simp only [Tr.bind_leak, foldCarryT_leak]
  refine leak_append_congr rfl (leak_append_congr (carryLoopT_leak_congr _ _ _ ?_ 56 0 0) rfl)
  intro i c c'
  simp only [Tr.bind_leak, Tr.pure_leak, readT, branchT]

theorem fe448_subT_leak (a b : List Nat) : (fe448_subT a b).leak = subLeak := by
  unfold subLeak fe448_subT
  simp only [Tr.bind_leak, foldCarryT_leak]
  refine leak_append_congr rfl (leak_append_congr (carryLoopT_leak_congr _ _ _ ?_ 56 0 0) rfl)
  intro i c c'
  simp only [Tr.bind_leak, Tr.pure_leak, readT, branchT]

theorem fe448_mul39081T_leak (a : List Nat) : (fe448_mul39081T a).leak = mul39081Leak := by
  unfold mul39081Leak fe448_mul39081T
  simp only [Tr.bind_leak, foldCarryT_leak]
  refine leak_append_congr rfl (leak_append_congr (carryLoopT_leak_congr _ _ _ ?_ 56 0 0) rfl)
  intro i c c'
  simp only [Tr.bind_leak, Tr.pure_leak, readT, branchT]

theorem reduceWideT_leak (t : List Nat) : (reduceWideT t).leak = reduceLeak := by
  unfold reduceLeak reduceWideT
  simp only [Tr.bind_leak, foldCarryT_leak]
  refine leak_append_congr (carryLoopT_leak_congr _ _ _ ?_ 56 0 0) rfl
  intro i c c'
  exact foldAccT_leak_congr t [] i c c'

theorem mulWideT_leak (a b : List Nat) : (mulWideT a b).leak = mulWideLeak := by
  unfold mulWideLeak mulWideT
  simp only [Tr.bind_leak, Tr.pure_leak]
  refine leak_append_congr (carryLoopT_leak_congr _ _ _ ?_ 111 0 0) rfl
  intro i c c'
  exact mulColumnT_leak_congr a b [] [] i c c'

theorem sqrWideT_leak (a : List Nat) : (sqrWideT a).leak = sqrWideLeak := by
  unfold sqrWideLeak sqrWideT
  simp only [Tr.bind_leak, Tr.pure_leak]
  refine leak_append_congr (carryLoopT_leak_congr _ _ _ ?_ 111 0 0) rfl
  intro i c c'
  exact sqrColumnT_leak_congr a [] i c c'

theorem fe448_mulT_leak (a b : List Nat) : (fe448_mulT a b).leak = mulLeak := by
  unfold mulLeak fe448_mulT
  simp only [Tr.bind_leak, mulWideT_leak, reduceWideT_leak]

theorem fe448_sqrT_leak (a : List Nat) : (fe448_sqrT a).leak = sqrLeak := by
  unfold sqrLeak fe448_sqrT
  simp only [Tr.bind_leak, sqrWideT_leak, reduceWideT_leak, fe448_normT_leak]

theorem sqrMulT_leak (a t : List Nat) : (sqrMulT a t).leak = sqrLeak ++ mulLeak := by
  unfold sqrMulT
  simp only [Tr.bind_leak, fe448_sqrT_leak, fe448_mulT_leak]

theorem fe448_invertT_leak_eq (a : List Nat) :
    (fe448_invertT a).leak
      = Leak.call Fn.invert :: (sqrLeak ++ (mulLeak ++ (repeatLeak (sqrLeak ++ mulLeak) 221
          ++ (sqrLeak ++ (repeatLeak (sqrLeak ++ mulLeak) 222
            ++ (sqrLeak ++ (sqrLeak ++ mulLeak))))))) := by
  unfold fe448_invertT
  simp only [Tr.bind_leak]
  simp only [fe448_sqrT_leak, fe448_mulT_leak,
    repeatT_leak (sqrMulT a) (sqrLeak ++ mulLeak) (sqrMulT_leak a), callT,
    List.singleton_append]

theorem fe448_invertT_leak (a : List Nat) : (fe448_invertT a).leak = invertLeak := by
  unfold invertLeak
  rw [fe448_invertT_leak_eq a, fe448_invertT_leak_eq []]

theorem ladderStepT_leak (n x1 : List Nat) (i : Nat) (s : Ladder) :
    (ladderStepT n x1 i s).leak = ladderStepLeak i := by
  unfold ladderStepLeak ladderStepT
  simp only [Tr.bind_leak, Tr.pure_leak]
  simp only [fe448_cswapT_leak, fe448_addT_leak, fe448_subT_leak, fe448_mulT_leak,
    fe448_sqrT_leak, fe448_mul39081T_leak, readT]

theorem ladderLoopT_leak_congr (n x1 n' x1' : List Nat) :
    ∀ (k : Nat) (s s' : Ladder),
      (ladderLoopT n x1 k s).leak = (ladderLoopT n' x1' k s').leak := by
  intro k
  induction k with
  | zero => intro s s'; rfl
  | succ k ih =>
    intro s s'
    rw [ladderLoopT, ladderLoopT]
    simp only [Tr.bind_leak]
    rw [ladderStepT_leak n x1 k s, ladderStepT_leak n' x1' k s',
      ih (ladderStepT n x1 k s).res (ladderStepT n' x1' k s').res]

theorem ladderLoopT_leak (n x1 : List Nat) (k : Nat) (s : Ladder) :
    (ladderLoopT n x1 k s).leak = ladderLoopLeak k :=
  ladderLoopT_leak_congr n x1 [] [] k s ladderInit

theorem curve448T_leak_congr (n a n' a' : List Nat) :
    (curve448T n a).leak = (curve448T n' a').leak := by
  unfold curve448T
  simp only [Tr.bind_leak]
  simp only [fe448_copyT_leak, ladderLoopT_leak, fe448_cswapT_leak, fe448_invertT_leak,
    fe448_mulT_leak, fe448_normT_leak]

theorem clampT_leak_congr (n n' : List Nat) : (clampT n).leak = (clampT n').leak := by
  unfold clampT
  simp only [Tr.bind_leak, Tr.pure_leak]
  simp only [fe448_copyT_leak, readT, writeT]

theorem scalarmultT_leak_congr (n p n' p' : List Nat) :
    (dropbear_curve448_scalarmultT n p).leak = (dropbear_curve448_scalarmultT n' p').leak := by
  unfold dropbear_curve448_scalarmultT
  simp only [Tr.bind_leak]
  rw [clampT_leak_congr n n', curve448T_leak_congr (clampT n).res p (clampT n').res p']

/-! ## Lemmas: number of calls among the recorded events -/

theorem callsOf_nil (f : Fn) : callsOf f [] = 0 := rfl

theorem callsOf_append (f : Fn) (l1 l2 : List Leak) :
    callsOf f (l1 ++ l2) = callsOf f l1 + callsOf f l2 := by
  unfold callsOf
  exact List.count_append _ _ _

theorem callsOf_iter (f : Fn) (i : Nat) (l : List Leak) :
    callsOf f (Leak.iter i :: l) = callsOf f l := by
  unfold callsOf
  exact List.count_cons_of_ne (by intro h; cases h) l

theorem callsOf_branch (f : Fn) (b : Bool) (l : List Leak) :
    callsOf f (Leak.branch b :: l) = callsOf f l := by
  unfold callsOf
  exact List.count_cons_of_ne (by intro h; cases h) l

theorem callsOf_index (f : Fn) (arr : Arr) (i : Nat) (l : List Leak) :
    callsOf f (Leak.index arr i :: l) = callsOf f l := by
  unfold callsOf
  exact List.count_cons_of_ne (by intro h; cases h) l

theorem callsOf_call (f g : Fn) (l : List Leak) :
    callsOf f (Leak.call g :: l) = (if g = f then 1 else 0) + callsOf f l := by
  unfold callsOf
  by_cases h : g = f
  · subst h
    rw [List.count_cons_self, if_pos rfl, Nat.add_comm]
  · rw [List.count_cons_of_ne (by intro e; cases e; exact h rfl), if_neg h, zero_add]

theorem carryLoopT_calls (f : Fn) (out : Option Arr) (acc : Nat → Int → Tr Int)
    (h : ∀ i c, callsOf f (acc i c).leak = 0) :
    ∀ (n : Nat) (c : Int), callsOf f (carryLoopT out acc n c).leak = 0 := by
  intro n
  induction n with
  | zero => intro c; rfl
  | succ n ih =>
    intro c
    cases out <;>
      simp only [carryLoopT, Tr.bind_leak, Tr.pure_leak, callsOf_append, ih, h, iterT, writeT,
        callsOf_iter, callsOf_index, callsOf_nil]

theorem mulInnerT_calls (f : Fn) (a b : List Nat) (k : Nat) :
    ∀ (cnt i : Nat) (c : Int), callsOf f (mulInnerT a b k cnt i c).leak = 0 := by
  intro cnt
  induction cnt with
  | zero => intro i c; rfl
  | succ cnt ih =>
    intro i c
    simp only [mulInnerT, Tr.bind_leak, callsOf_append, ih, iterT, readT,
      callsOf_iter, callsOf_index, callsOf_nil]

theorem mulColumnT_calls (f : Fn) (a b : List Nat) (k : Nat) (c : Int) :
    callsOf f (mulColumnT a b k c).leak = 0 := by
  unfold mulColumnT
  split <;> exact mulInnerT_calls f a b k _ _ c

theorem sqrInnerT_calls (f : Fn) (a : List Nat) (k : Nat) :
    ∀ (cnt i : Nat) (c : Int), callsOf f (sqrInnerT a k cnt i c).leak = 0 := by
  intro cnt
  induction cnt with
  | zero => intro i c; rfl
  | succ cnt ih =>
    intro i c
    by_cases h : k - i < i
    · simp [sqrInnerT, branchT, iterT, h, callsOf_append, callsOf_iter, callsOf_branch,
        callsOf_nil]
    · simp only [sqrInnerT, Tr.bind_leak, branchT, readT, iterT, h, decide_False,
        Bool.false_eq_true, if_false, callsOf_append, ih, callsOf_iter, callsOf_branch,
        callsOf_index, callsOf_nil]

theorem sqrColumnT_calls (f : Fn) (a : List Nat) (k : Nat) (c : Int) :
    callsOf f (sqrColumnT a k c).leak = 0 := by
  unfold sqrColumnT
  split <;> exact sqrInnerT_calls f a k _ _ c

theorem foldAccT_calls (f : Fn) (t : List Nat) (i : Nat) (o : Int) :
    callsOf f (foldAccT t i o).leak = 0 := by
  unfold foldAccT
  split <;>
    simp only [Tr.bind_leak, Tr.pure_leak, readT, callsOf_append, callsOf_index, callsOf_nil]

theorem foldCarryT_calls (f : Fn) (arr : Arr) (w : Int → Int) (r : List Nat) (c : Int) :
    callsOf f (foldCarryT arr w r c).leak = 0 := by
  unfold foldCarryT
  simp only [Tr.bind_leak, Tr.pure_leak, callsOf_append, callsOf_nil, add_zero]
  refine carryLoopT_calls f _ _ ?_ 56 0
  intro i c
  simp only [Tr.bind_leak, Tr.pure_leak, readT, branchT, callsOf_append, callsOf_index,
    callsOf_branch, callsOf_nil]

theorem reduceWideT_calls (f : Fn) (t : List Nat) : callsOf f (reduceWideT t).leak = 0 := by
  unfold reduceWideT
  simp only [Tr.bind_leak, callsOf_append, foldCarryT_calls, add_zero]
  exact carryLoopT_calls f _ _ (foldAccT_calls f t) 56 0

theorem mulWideT_calls (f : Fn) (a b : List Nat) : callsOf f (mulWideT a b).leak = 0 := by
  unfold mulWideT
  simp only [Tr.bind_leak, Tr.pure_leak, callsOf_append, writeT, callsOf_index, callsOf_nil,
    add_zero]
  exact carryLoopT_calls f _ _ (mulColumnT_calls f a b) 111 0

theorem sqrWideT_calls (f : Fn) (a : List Nat) : callsOf f (sqrWideT a).leak = 0 := by
  unfold sqrWideT
  simp only [Tr.bind_leak, Tr.pure_leak, callsOf_append, writeT, callsOf_index, callsOf_nil,
    add_zero]
  exact carryLoopT_calls f _ _ (sqrColumnT_calls f a) 111 0

theorem fe448_normT_calls (f : Fn) (a : List Nat) :
    callsOf f (fe448_normT a).leak = if Fn.norm = f then 1 else 0 := by
  unfold fe448_normT
  simp only [Tr.bind_leak, callT, List.singleton_append, callsOf_call, callsOf_append,
    foldCarryT_calls, add_zero]
  rw [carryLoopT_calls f none _ ?_ 56 0]
  · rw [add_zero]
  · intro i c
    simp only [Tr.bind_leak, Tr.pure_leak, readT, branchT, callsOf_append, callsOf_index,
      callsOf_branch, callsOf_nil]

theorem fe448_mulT_calls (f : Fn) (a b : List Nat) :
    callsOf f (fe448_mulT a b).leak = if Fn.mul = f then 1 else 0 := by
  unfold fe448_mulT
  simp only [Tr.bind_leak, callT, List.singleton_append, callsOf_call, callsOf_append,
    mulWideT_calls, reduceWideT_calls, add_zero]

theorem fe448_sqrT_calls (f : Fn) (a : List Nat) :
    callsOf f (fe448_sqrT a).leak
      = (if Fn.sqr = f then 1 else 0) + (if Fn.norm = f then 1 else 0) := by
  unfold fe448_sqrT
  simp only [Tr.bind_leak, callT, List.singleton_append, callsOf_call, callsOf_append,
    sqrWideT_calls, reduceWideT_calls, fe448_normT_calls, zero_add]

theorem sqrMulT_calls (f : Fn) (a t : List Nat) :
    callsOf f (sqrMulT a t).leak
      = (if Fn.sqr = f then 1 else 0) + (if Fn.norm = f then 1 else 0)
        + (if Fn.mul = f then 1 else 0) := by
  unfold sqrMulT
  simp only [Tr.bind_leak, callsOf_append, fe448_sqrT_calls, fe448_mulT_calls]

theorem repeatT_calls {α : Type} (g : Fn) (f : α → Tr α) (m : Nat)
    (h : ∀ x, callsOf g (f x).leak = m) :
    ∀ (n : Nat) (x : α), callsOf g (repeatT f n x).leak = n * m := by
  intro n
  induction n with
  | zero => intro x; simp only [repeatT, Tr.pure_leak, callsOf_nil, Nat.zero_mul]
  | succ n ih =>
    intro x
    simp only [repeatT, Tr.bind_leak, callsOf_append, iterT, callsOf_iter, callsOf_nil, ih, h,
      Nat.succ_mul, zero_add]

theorem fe448_invertT_calls (f : Fn) (a : List Nat) :
    callsOf f (fe448_invertT a).leak
      = (if Fn.invert = f then 1 else 0)
        + 447 * ((if Fn.sqr = f then 1 else 0) + (if Fn.norm = f then 1 else 0))
        + 445 * (if Fn.mul = f then 1 else 0) := by
  unfold fe448_invertT
  simp only [Tr.bind_leak]
  simp only [callT, List.singleton_append, callsOf_call, callsOf_append, fe448_sqrT_calls,
    fe448_mulT_calls, repeatT_calls f (sqrMulT a) _ (sqrMulT_calls f a)]
  ring

/-! ## C16: control flow and accesses do not depend on the data -/

/-- C16: constant-time control flow. The instrumented functions compute exactly the
results of `dropbear_curve448_scalarmult`, `fe448_cswap` and `fe448_invert`, and the
recorded sequence of field-operation calls, loop iterations, branch outcomes and array
positions accessed is the same for every two scalars and points, and for every two
arguments of each field operation; in particular `fe448_cswap` records the same events
for every two values of `c` (so for `c = 0` and `c = 1`), and every run of
`fe448_invert` records 447 calls of `fe448_sqr` and 445 calls of `fe448_mul`. -/
theorem scalarmult_constant_time :
    (∀ n p : List Nat,
      (dropbear_curve448_scalarmultT n p).res = dropbear_curve448_scalarmult n p) ∧
    (∀ n p n' p' : List Nat,
      (dropbear_curve448_scalarmultT n p).leak = (dropbear_curve448_scalarmultT n' p').leak) ∧
    (∀ (a b : List Nat) (c : Nat), (fe448_cswapT a b c).res = fe448_cswap a b c) ∧
    (∀ (a b a' b' : List Nat) (c c' : Nat),
      (fe448_cswapT a b c).leak = (fe448_cswapT a' b' c').leak) ∧
    (∀ a a' : List Nat, (fe448_normT a).leak = (fe448_normT a').leak) ∧
    (∀ a a' : List Nat, (fe448_copyT a).leak = (fe448_copyT a').leak) ∧
    (∀ a b a' b' : List Nat, (fe448_addT a b).leak = (fe448_addT a' b').leak) ∧
    (∀ a b a' b' : List Nat, (fe448_subT a b).leak = (fe448_subT a' b').leak) ∧
    (∀ a a' : List Nat, (fe448_mul39081T a).leak = (fe448_mul39081T a').leak) ∧
    (∀ a b a' b' : List Nat, (fe448_mulT a b).leak = (fe448_mulT a' b').leak) ∧
    (∀ a a' : List Nat, (fe448_sqrT a).leak = (fe448_sqrT a').leak) ∧
    (∀ a : List Nat, (fe448_invertT a).res = fe448_invert a) ∧
    (∀ a a' : List Nat, (fe448_invertT a).leak = (fe448_invertT a').leak) ∧
    (∀ a : List Nat, callsOf Fn.sqr (fe448_invertT a).leak = 447
      ∧ callsOf Fn.mul (fe448_invertT a).leak = 445) := by
  refine ⟨scalarmultT_res, scalarmultT_leak_congr, fe448_cswapT_res, ?_, ?_, ?_, ?_, ?_, ?_,
    ?_, ?_, fe448_invertT_res, ?_, ?_⟩
  · intro a b a' b' c c'
    rw [fe448_cswapT_leak, fe448_cswapT_leak]
  · intro a a'
    rw [fe448_normT_leak, fe448_normT_leak]
  · intro a a'
    rw [fe448_copyT_leak, fe448_copyT_leak]
  · intro a b a' b'
    rw [fe448_addT_leak, fe448_addT_leak]
  · intro a b a' b'
    rw [fe448_subT_leak, fe448_subT_leak]
  · intro a a'
    rw [fe448_mul39081T_leak, fe448_mul39081T_leak]
  · intro a b a' b'
    rw [fe448_mulT_leak, fe448_mulT_leak]
  · intro a a'
    rw [fe448_sqrT_leak, fe448_sqrT_leak]
  · intro a a'
    rw [fe448_invertT_leak, fe448_invertT_leak]
  · intro a
    constructor
    · rw [fe448_invertT_calls]
      decide
    · rw [fe448_invertT_calls]
      decide

end Curve448
